import Mathlib

/-!
Verification development for the clip-as-service CLIP encoder executors
(`clip_server/executors/clip_torch.py` and `clip_server/executors/clip_onnx.py`).

The executors are shallowly embedded as pure Lean functions:
* an `Item` is a Document seen by the encoder: it carries image content, text
  content, or neither, plus a mutable embedding slot and a rank-score slot;
* a `Doc` is a root Document with its candidate matches (the two-level
  nesting used by `rank`); a `DocSet` is a `DocumentArray` of roots;
* in-place mutation of Documents is modelled by locations (`Loc`) into the
  `DocSet` and functional update (`setLoc` / `writeBackLocs`);
* the external CLIP model is a parameter of the configuration: a function
  from the contents of a minibatch to `Option (List Emb)`, where `none`
  models a failing minibatch (preprocessing or inference error raised) and
  embeddings are deterministic bit patterns (`List Int`);
* `encode` mirrors `CLIPEncoder.encode`: resolve the access path (honouring
  the deprecated `traversal_paths` request parameter), split the selected
  Documents by modality, run per-modality minibatches in order, write
  embeddings back in place, and propagate the first minibatch failure;
* the engine-dispatch trace is recorded as a list of `Event`s;
* `torchThreadTuning` / `onnxThreadTuning` mirror the CPU thread-budget
  derivation in the two `__init__` bodies.
-/

namespace ClipAsService

/-- An embedding vector written back onto a Document.  Inference is assumed
deterministic, so the float32 bit patterns are modelled as integers. -/
abbrev Emb := List Int

/-- Content carried by a Document: image content, text content, or neither.
The payload is an opaque token standing for the raw bytes / string. -/
inductive Content
  | image (data : Nat)
  | text (data : Nat)
  | neither
  deriving DecidableEq

/-- A Document as the encoder sees it: content, an optional embedding slot
(initially absent) and an optional rank-score slot. -/
structure Item where
  content : Content
  embedding : Option Emb
  score : Option Int
  deriving DecidableEq

instance : Inhabited Item := ⟨⟨Content.neither, none, none⟩⟩

/-- A root Document together with its candidate matches (used by `rank`). -/
structure Doc where
  root : Item
  matchItems : List Item
  deriving DecidableEq

/-- A `DocumentArray` of root Documents. -/
abbrev DocSet := List Doc

/-- The access paths the executors actually use: `'@r'` (roots only, the
instance default), `'@m'` (matches), and `'@r,m'` (roots then matches, used
by `rank`). -/
inductive AccessPath
  | r
  | m
  | rm
  deriving DecidableEq

/-- A location of an Item inside a `DocSet`: either the root of the `i`-th
Document or the `j`-th match of the `i`-th Document.  Locations model the
reference identity of Documents, so that in-place embedding writes can be
expressed functionally. -/
inductive Loc
  | root (i : Nat)
  | mtch (i j : Nat)
  deriving DecidableEq

/-- The Item stored at a location (a default Item when out of range). -/
def getLoc (ds : DocSet) : Loc → Item
  | .root i => (ds[i]?.map Doc.root).getD default
  | .mtch i j => (ds[i]?.bind (fun d => d.matchItems[j]?)).getD default

/-- Functional update of an index in a list; no-op when out of range. -/
def modifyIdx (f : α → α) : Nat → List α → List α
  | _, [] => []
  | 0, x :: xs => f x :: xs
  | n + 1, x :: xs => x :: modifyIdx f n xs

/-- Write an Item at a location (no-op when the location is out of range). -/
def setLoc (ds : DocSet) : Loc → Item → DocSet
  | .root i, it => modifyIdx (fun d => { d with root := it }) i ds
  | .mtch i j, it =>
      modifyIdx (fun d => { d with matchItems := modifyIdx (fun _ => it) j d.matchItems }) i ds

/-- Whether a location points at an existing Item of the `DocSet`. -/
def locValid (ds : DocSet) : Loc → Bool
  | .root i => decide (i < ds.length)
  | .mtch i j =>
      match ds[i]? with
      | some d => decide (j < d.matchItems.length)
      | none => false

/-- The locations of the matches of the element `docs[access_paths]` would
yield for one element of a flattened `DocumentArray`.  In the two-level data
model a match Document has no matches of its own. -/
def locMatches (ds : DocSet) : Loc → List Loc
  | .root i => (List.range ((ds[i]?.map (fun d => d.matchItems.length)).getD 0)).map (Loc.mtch i)
  | .mtch _ _ => []

/-- The locations selected by `docs[access_paths]` on the original `DocSet`:
`'@r'` is the roots in order, `'@m'` all matches in root order, `'@r,m'` the
concatenation of the two. -/
def select (ds : DocSet) : AccessPath → List Loc
  | .r => (List.range ds.length).map Loc.root
  | .m => ((List.range ds.length).map Loc.root).flatMap (locMatches ds)
  | .rm =>
      ((List.range ds.length).map Loc.root)
        ++ ((List.range ds.length).map Loc.root).flatMap (locMatches ds)

/-- Selecting with an access path from an already flattened `DocumentArray`
(given as the locations of its elements), as `rank` effectively does:
`flat[access_paths]`. -/
def selectFrom (ds : DocSet) (flat : List Loc) : AccessPath → List Loc
  | .r => flat
  | .m => flat.flatMap (locMatches ds)
  | .rm => flat ++ flat.flatMap (locMatches ds)

/-- Whether an Item carries image content (`doc.blob / doc.tensor / doc.uri`). -/
def isImg (it : Item) : Bool :=
  match it.content with
  | .image _ => true
  | _ => false

/-- Whether an Item carries text content (`doc.text`). -/
def isTxt (it : Item) : Bool :=
  match it.content with
  | .text _ => true
  | _ => false

/-- Whether an Item carries any encodable content. -/
def hasContent (it : Item) : Bool := isImg it || isTxt it

/-- Modelled from the spec: `split_img_txt_da` lives in
`clip_server/executors/helper.py`, which is not under `src/`.  Per the spec
it routes a Document with image content to the image array, a Document with
text content to the text array, and silently drops a Document with neither
(appending preserves the traversal order). -/
def split_img_txt_da (d : Item) (imgs txts : List Item) : List Item × List Item :=
  match d.content with
  | .image _ => (imgs ++ [d], txts)
  | .text _ => (imgs, txts ++ [d])
  | .neither => (imgs, txts)

/-- The Modality Splitter loop of `encode`:
`for d in docs[access_paths]: split_img_txt_da(d, _img_da, _txt_da)`. -/
def splitAll (ds : List Item) : List Item × List Item :=
  ds.foldl (fun acc d => split_img_txt_da d acc.1 acc.2) ([], [])

/-- Filter a list while remembering each kept element's index (index `i` is
the position of the head of the list in the enclosing array).  This is the
index-tracking counterpart of the Modality Splitter: the index plays the
role of the Document reference that the real `DocumentArray` keeps. -/
def idxFilter (p : α → Bool) : Nat → List α → List (Nat × α)
  | _, [] => []
  | i, x :: xs => if p x then (i, x) :: idxFilter p (i + 1) xs else idxFilter p (i + 1) xs

/-- Fuel-driven worker for `chunks` (fuel ≥ length of the list makes the
last clause unreachable); group size is `n + 1`. -/
def chunksAux (n : Nat) : Nat → List α → List (List α)
  | _, [] => []
  | 0, x :: xs => [x :: xs]
  | f + 1, x :: xs => (x :: xs.take n) :: chunksAux n f (xs.drop n)

/-- Partition a list into successive minibatches of at most `n` elements,
in order, the last possibly smaller — the batching of
`DocumentArray.map_batch(batch_size=n)`.  The degenerate `n = 0` is mapped
to a single batch. -/
def chunks (n : Nat) (xs : List α) : List (List α) :=
  match n with
  | 0 => if xs.isEmpty then [] else [xs]
  | k + 1 => chunksAux k xs.length xs

/-- An engine dispatch observed during `encode`: one minibatch handed to
`encode_image` or `encode_text`, recorded with the minibatch contents. -/
inductive Event
  | imgBatch (cs : List Content)
  | txtBatch (cs : List Content)
  deriving DecidableEq

/-- Whether an event is an image-minibatch dispatch. -/
def isImgEvent : Event → Bool
  | .imgBatch _ => true
  | _ => false

/-- Whether an event is a text-minibatch dispatch. -/
def isTxtEvent : Event → Bool
  | .txtBatch _ => true
  | _ => false

/-- Configuration of one `CLIPEncoder` instance: the minibatch size, the
instance-default access path, and the two modality pipelines.  Each
pipeline function maps the contents of one minibatch to its embeddings —
it stands for preprocessing followed by the model forward pass — and
returns `none` when that minibatch fails. -/
structure Cfg where
  minibatch_size : Nat
  access_paths : AccessPath
  encode_image : List Content → Option (List Emb)
  encode_text : List Content → Option (List Emb)

/-- The contents of a minibatch of located Items. -/
def batchContents (b : List (Nat × Item)) : List Content := b.map (fun p => p.2.content)

/-- Overwrite the embedding slot of an Item. -/
def setEmb (e : Emb) (it : Item) : Item := { it with embedding := some e }

/-- Apply a sequence of positional embedding writes to a flat Item list
(later writes win, out-of-range writes are no-ops). -/
def setEmbsAt (items : List Item) (ps : List (Nat × Emb)) : List Item :=
  ps.foldl (fun acc p => modifyIdx (setEmb p.2) p.1 acc) items

/-- One modality loop of `encode`: run the minibatches in order; a
successful minibatch writes one embedding per Item back in place and is
recorded as a dispatch event; a failing minibatch raises, which stops the
loop, leaves the Items as they are, and marks the whole call failed. -/
def runBatches (enc : List Content → Option (List Emb)) (ev : List Content → Event) :
    List Item → List (List (Nat × Item)) → List Item × Bool × List Event
  | items, [] => (items, false, [])
  | items, b :: bs =>
      match enc (batchContents b) with
      | none => (items, true, [])
      | some es =>
          let r := runBatches enc ev (setEmbsAt items ((b.map Prod.fst).zip es)) bs
          (r.1, r.2.1, ev (batchContents b) :: r.2.2)

/-- The embedding writes produced by a modality loop (stops at the first
failing minibatch). -/
def runWrites (enc : List Content → Option (List Emb)) :
    List (List (Nat × Item)) → List (Nat × Emb)
  | [] => []
  | b :: bs =>
      match enc (batchContents b) with
      | none => []
      | some es => ((b.map Prod.fst).zip es) ++ runWrites enc bs

/-- Whether a modality loop hits a failing minibatch. -/
def runFailed (enc : List Content → Option (List Emb)) :
    List (List (Nat × Item)) → Bool
  | [] => false
  | b :: bs =>
      match enc (batchContents b) with
      | none => true
      | some _ => runFailed enc bs

/-- The engine dispatches of a modality loop (stops at the first failing
minibatch, which is never dispatched). -/
def runEvents (enc : List Content → Option (List Emb)) (ev : List Content → Event) :
    List (List (Nat × Item)) → List Event
  | [] => []
  | b :: bs =>
      match enc (batchContents b) with
      | none => []
      | some _ => ev (batchContents b) :: runEvents enc ev bs

/-- The image minibatches of a flat selected-Item list. -/
def imgBatches (cfg : Cfg) (items : List Item) : List (List (Nat × Item)) :=
  chunks cfg.minibatch_size (idxFilter isImg 0 items)

/-- The text minibatches of a flat selected-Item list. -/
def txtBatches (cfg : Cfg) (items : List Item) : List (List (Nat × Item)) :=
  chunks cfg.minibatch_size (idxFilter isTxt 0 items)

/-- The body of `encode` on the flat list of selected Items: split by
modality, then the image loop (`if _img_da:`), then — only when no image
minibatch failed — the text loop (`if _txt_da:`).  Returns the updated
Items, the failure flag, and the dispatch trace. -/
def encodeItems (cfg : Cfg) (items : List Item) : List Item × Bool × List Event :=
  let imgs := idxFilter isImg 0 items
  let txts := idxFilter isTxt 0 items
  let r1 :=
    if imgs.isEmpty then (items, false, ([] : List Event))
    else runBatches cfg.encode_image Event.imgBatch items (chunks cfg.minibatch_size imgs)
  if r1.2.1 then (r1.1, true, r1.2.2)
  else
    let r2 :=
      if txts.isEmpty then (r1.1, false, ([] : List Event))
      else runBatches cfg.encode_text Event.txtBatch r1.1 (chunks cfg.minibatch_size txts)
    (r2.1, r2.2.1, r1.2.2 ++ r2.2.2)

/-- The body of `encode` with the image loop removed: what the call does
when the image subset is empty. -/
def encodeItemsTextOnly (cfg : Cfg) (items : List Item) : List Item × Bool × List Event :=
  let txts := idxFilter isTxt 0 items
  if txts.isEmpty then (items, false, ([] : List Event))
  else runBatches cfg.encode_text Event.txtBatch items (chunks cfg.minibatch_size txts)

/-- The body of `encode` with the text loop removed: what the call does
when the text subset is empty. -/
def encodeItemsImageOnly (cfg : Cfg) (items : List Item) : List Item × Bool × List Event :=
  let imgs := idxFilter isImg 0 items
  if imgs.isEmpty then (items, false, ([] : List Event))
  else runBatches cfg.encode_image Event.imgBatch items (chunks cfg.minibatch_size imgs)

/-- Request parameters of one `encode` call: the optional `access_paths`
override and the optional deprecated `traversal_paths` override. -/
structure Params where
  access_paths : Option AccessPath
  traversal_paths : Option AccessPath
  deriving DecidableEq

/-- The empty parameters dict `{}`. -/
def noParams : Params := ⟨none, none⟩

/-- The access path one `encode` call uses:
`access_paths = parameters.get('access_paths', self._access_paths)`, then
`traversal_paths`, when present, takes precedence. -/
def effectivePath (cfg : Cfg) (p : Params) : AccessPath :=
  match p.traversal_paths with
  | some t => t
  | none => p.access_paths.getD cfg.access_paths

/-- Result of one `encode` call: the final state of the `DocSet` (whether
the call raised or not — writes are in place), the failure flag (`true`
means the call raised instead of returning), the engine-dispatch trace, and
whether the deprecation warning for `traversal_paths` was emitted. -/
structure EncodeResult where
  docs : DocSet
  failed : Bool
  events : List Event
  warnedDeprecated : Bool
  deriving DecidableEq

/-- Write a sequence of located Items back into the `DocSet` (the in-place
mutation of the selected Documents). -/
def writeBackLocs (ds : DocSet) (lps : List (Loc × Item)) : DocSet :=
  lps.foldl (fun acc p => setLoc acc p.1 p.2) ds

/-- Run the body of `encode` over an explicit list of selected locations. -/
def encodeOn (cfg : Cfg) (ds : DocSet) (locs : List Loc) (warned : Bool) : EncodeResult :=
  let r := encodeItems cfg (locs.map (getLoc ds))
  { docs := writeBackLocs ds (locs.zip r.1), failed := r.2.1, events := r.2.2,
    warnedDeprecated := warned }

/-- `CLIPEncoder.encode`: resolve the access path from the request
parameters (with the deprecated `traversal_paths` taking precedence and
emitting a warning), select, split, run both modality loops, write
embeddings back in place. -/
def encode (cfg : Cfg) (ds : DocSet) (p : Params) : EncodeResult :=
  encodeOn cfg ds (select ds (effectivePath cfg p)) p.traversal_paths.isSome

/-- `encode` with the image loop removed (used to state the empty-modality
skip). -/
def encodeTextOnly (cfg : Cfg) (ds : DocSet) (p : Params) : EncodeResult :=
  let locs := select ds (effectivePath cfg p)
  let r := encodeItemsTextOnly cfg (locs.map (getLoc ds))
  { docs := writeBackLocs ds (locs.zip r.1), failed := r.2.1, events := r.2.2,
    warnedDeprecated := p.traversal_paths.isSome }

/-- `encode` with the text loop removed (used to state the empty-modality
skip). -/
def encodeImageOnly (cfg : Cfg) (ds : DocSet) (p : Params) : EncodeResult :=
  let locs := select ds (effectivePath cfg p)
  let r := encodeItemsImageOnly cfg (locs.map (getLoc ds))
  { docs := writeBackLocs ds (locs.zip r.1), failed := r.2.1, events := r.2.2,
    warnedDeprecated := p.traversal_paths.isSome }

/-- Integer dot product of two embeddings (the similarity abstraction). -/
def dot (a b : Emb) : Int := ((a.zip b).map (fun p => p.1 * p.2)).foldl (· + ·) 0

/-- Stable insertion into a descending-by-score list: an element moves past
another only when its score is strictly greater, so equal scores keep their
original relative order. -/
def insertDesc (x : Item) : List Item → List Item
  | [] => [x]
  | y :: ys =>
      if (x.score.getD 0) > (y.score.getD 0) then x :: y :: ys else y :: insertDesc x ys

/-- Stable descending insertion sort by score. -/
def sortDesc : List Item → List Item
  | [] => []
  | x :: xs => insertDesc x (sortDesc xs)

/-- Modelled from the spec: `set_rank` lives in
`clip_server/executors/helper.py`, which is not under `src/`.  Per the spec
it computes, for each root, a similarity score between the root embedding
and each candidate-match embedding, writes the score on each candidate, and
sorts the candidates by descending similarity with a stable tie-break. -/
def set_rank (ds : DocSet) : DocSet :=
  ds.map (fun d =>
    { d with
      matchItems :=
        sortDesc (d.matchItems.map (fun m =>
          { m with score := some (dot (d.root.embedding.getD []) (m.embedding.getD [])) })) })

/-- `CLIPEncoder.rank`: `await self.encode(docs['@r,m'])` — `encode` is
called on the flattened root-plus-matches array with the default (empty)
parameters dict, so inside `encode` the instance-default access path is
applied to that flattened array — then `set_rank(docs)`.  The `parameters`
argument of `rank` is received but never used. -/
def rank (cfg : Cfg) (ds : DocSet) (parameters : Params) : DocSet × Bool :=
  let flat := select ds AccessPath.rm
  let r := encodeOn cfg ds (selectFrom ds flat (effectivePath cfg noParams)) false
  (set_rank r.docs, r.failed)

/-- Arguments visible to the thread-tuning block of `__init__`: the
requested device (if any), CUDA availability, whether `OMP_NUM_THREADS` is
set in the environment, and the `replicas` runtime argument (if the
attribute exists). -/
structure InitArgs where
  device : Option String
  cudaAvailable : Bool
  ompSet : Bool
  replicas : Option Nat

/-- Process-global torch thread configuration
(`torch.get_num_threads()` / `torch.set_num_threads` /
`torch.set_num_interop_threads`). -/
structure TorchThreadCfg where
  numThreads : Nat
  interop : Nat
  deriving DecidableEq

/-- Thread-related onnxruntime session options; `none` means "left at the
library default, never assigned". -/
structure OrtSessOptions where
  executionModeParallel : Bool
  interOpNumThreads : Option Nat
  intraOpNumThreads : Option Nat
  deriving DecidableEq

/-- `device.startswith('cuda')` on the device strings. -/
def startsWithCuda (s : String) : Bool := s.data.take 4 == ['c', 'u', 'd', 'a']

/-- Device resolution of `__init__`: the explicit argument, else
`'cuda' if torch.cuda.is_available() else 'cpu'`. -/
def resolveDevice (a : InitArgs) : String :=
  match a.device with
  | some d => d
  | none => if a.cudaAvailable then "cuda" else "cpu"

/-- The CPU thread-tuning block of `clip_torch.CLIPEncoder.__init__`:
on a non-CUDA device, with `OMP_NUM_THREADS` unset and a `replicas`
runtime attribute, derive `max(1, torch.get_num_threads() // replicas)`,
warn (non-fatally) when it is below 2, and set the global torch thread
counts; otherwise leave the globals untouched.  Returns the resulting
globals and whether the warning was emitted. -/
def torchThreadTuning (a : InitArgs) (g : TorchThreadCfg) : TorchThreadCfg × Bool :=
  if !(startsWithCuda (resolveDevice a)) && !a.ompSet && a.replicas.isSome then
    let replicas := a.replicas.getD 1
    let numThreads := max 1 (g.numThreads / replicas)
    ({ numThreads := max numThreads 1, interop := 1 }, decide (numThreads < 2))
  else (g, false)

/-- The CPU thread-tuning block of `clip_onnx.CLIPEncoder.__init__`:
same guard, budget `max(1, torch.get_num_threads() * 2 // replicas)`, warn
below 2, and set the session options (parallel execution mode, 1 inter-op
thread, budget intra-op threads); otherwise leave the session options
untouched. -/
def onnxThreadTuning (a : InitArgs) (g : TorchThreadCfg) (so : OrtSessOptions) :
    OrtSessOptions × Bool :=
  if !(startsWithCuda (resolveDevice a)) && !a.ompSet && a.replicas.isSome then
    let replicas := a.replicas.getD 1
    let numThreads := max 1 (g.numThreads * 2 / replicas)
    ({ executionModeParallel := true, interOpNumThreads := some 1,
       intraOpNumThreads := some (max numThreads 1) }, decide (numThreads < 2))
  else (so, false)

/-- Constructor keyword arguments relevant to the access-path default. -/
structure InitKwargs where
  access_paths : AccessPath
  traversal_paths : Option AccessPath
  deriving DecidableEq

/-- The access-path initialisation of `__init__`:
`self._access_paths = access_paths`, overridden by the deprecated
`traversal_paths` keyword argument when present, with a deprecation
warning.  Returns the instance default and whether the warning was
emitted. -/
def initAccessPaths (k : InitKwargs) : AccessPath × Bool :=
  match k.traversal_paths with
  | some t => (t, true)
  | none => (k.access_paths, false)

/-- The last embedding written at position `j` by a write sequence, if
any (later writes win, matching `setEmbsAt`). -/
def lastAssoc : List (Nat × Emb) → Nat → Option Emb
  | [], _ => none
  | p :: ps, j =>
      match lastAssoc ps j with
      | some e => some e
      | none => if p.1 = j then some p.2 else none

/-- Whether the Item at position `j` of a flat list has an embedding. -/
def embAt (items : List Item) (j : Nat) : Bool :=
  ((items[j]?).map (fun it => it.embedding.isSome)).getD false

/-- All embedding writes performed by one `encode` body: the image-loop
writes, then — unless an image minibatch failed — the text-loop writes. -/
def encodeWrites (cfg : Cfg) (items : List Item) : List (Nat × Emb) :=
  if runFailed cfg.encode_image (imgBatches cfg items) then
    runWrites cfg.encode_image (imgBatches cfg items)
  else
    runWrites cfg.encode_image (imgBatches cfg items)
      ++ runWrites cfg.encode_text (txtBatches cfg items)

/-- Whether one `encode` body fails (some image or text minibatch fails). -/
def encodeFailed (cfg : Cfg) (items : List Item) : Bool :=
  runFailed cfg.encode_image (imgBatches cfg items) ||
    runFailed cfg.encode_text (txtBatches cfg items)

/-- The dispatch trace of one `encode` body: image dispatches, then —
unless an image minibatch failed — text dispatches. -/
def encodeEvents (cfg : Cfg) (items : List Item) : List Event :=
  if runFailed cfg.encode_image (imgBatches cfg items) then
    runEvents cfg.encode_image Event.imgBatch (imgBatches cfg items)
  else
    runEvents cfg.encode_image Event.imgBatch (imgBatches cfg items)
      ++ runEvents cfg.encode_text Event.txtBatch (txtBatches cfg items)

/-- The flat list of Items selected by one `encode` call: the Documents
`docs[access_paths]` yields, in traversal order. -/
def selItems (cfg : Cfg) (ds : DocSet) (p : Params) : List Item :=
  (select ds (effectivePath cfg p)).map (getLoc ds)

/-! Concrete fixtures used by counterexamples and witnesses. -/

/-- A configuration whose two pipelines always succeed, one embedding per
Item: images map to `[1]`, texts to `[2]`. -/
def wCfg : Cfg :=
  { minibatch_size := 2, access_paths := .r,
    encode_image := fun cs => some (cs.map (fun _ => [1])),
    encode_text := fun cs => some (cs.map (fun _ => [2])) }

/-- A configuration whose image pipeline always succeeds and whose text
pipeline always fails. -/
def wCfgTxtFail : Cfg :=
  { minibatch_size := 32, access_paths := .r,
    encode_image := fun cs => some (cs.map (fun _ => [1])),
    encode_text := fun _ => none }

/-- A four-Document set: image, text, image, no content. -/
def wDS : DocSet :=
  [⟨⟨.image 0, none, none⟩, []⟩, ⟨⟨.text 1, none, none⟩, []⟩,
   ⟨⟨.image 2, none, none⟩, []⟩, ⟨⟨.neither, none, none⟩, []⟩]

/-- A two-Document set: one image root, one text root. -/
def wDS2 : DocSet := [⟨⟨.image 0, none, none⟩, []⟩, ⟨⟨.text 1, none, none⟩, []⟩]

/-- A text-only Document set. -/
def wDSTxt : DocSet := [⟨⟨.text 1, none, none⟩, []⟩, ⟨⟨.text 2, none, none⟩, []⟩]

/-- An image-only Document set. -/
def wDSImg : DocSet := [⟨⟨.image 1, none, none⟩, []⟩, ⟨⟨.image 2, none, none⟩, []⟩]

/-! Supporting lemmas. -/

theorem splitAll_go (ds : List Item) :
    ∀ a b : List Item,
      ds.foldl (fun acc d => split_img_txt_da d acc.1 acc.2) (a, b) =
        (a ++ ds.filter isImg, b ++ ds.filter isTxt) := by
  induction ds with
  | nil => intro a b; simp
  | cons d ds ih =>
      intro a b
      have hstep : ∀ a' b' : List Item,
          List.foldl (fun acc d => split_img_txt_da d acc.1 acc.2) (a', b') (d :: ds) =
            List.foldl (fun acc d => split_img_txt_da d acc.1 acc.2)
              (split_img_txt_da d a' b') ds := by
        intro a' b'; rfl
      rw [hstep, ih (split_img_txt_da d a b).1 (split_img_txt_da d a b).2]
      cases hc : d.content with
      | image k => simp [split_img_txt_da, hc, List.filter_cons, isImg, isTxt]
      | text k => simp [split_img_txt_da, hc, List.filter_cons, isImg, isTxt]
      | neither => simp [split_img_txt_da, hc, List.filter_cons, isImg, isTxt]

theorem splitAll_eq_filter (ds : List Item) :
    splitAll ds = (ds.filter isImg, ds.filter isTxt) := by
  simpa using splitAll_go ds [] []

theorem modifyIdx_length (f : α → α) : ∀ (n : Nat) (l : List α),
    (modifyIdx f n l).length = l.length := by
  intro n l
  induction l generalizing n with
  | nil => cases n <;> rfl
  | cons x xs ih => cases n with
    | zero => simp [modifyIdx]
    | succ n => simp [modifyIdx, ih]

theorem modifyIdx_get? (f : α → α) : ∀ (n : Nat) (l : List α) (j : Nat),
    (modifyIdx f n l)[j]? = if j = n then l[j]?.map f else l[j]? := by
  intro n l
  induction l generalizing n with
  | nil => intro j; simp [modifyIdx]
  | cons x xs ih =>
      intro j
      cases n with
      | zero =>
          cases j with
          | zero => simp [modifyIdx]
          | succ j => simp [modifyIdx]
      | succ n =>
          cases j with
          | zero => simp [modifyIdx]
          | succ j => simpa [modifyIdx] using ih n j

theorem setEmb_setEmb (e e' : Emb) (it : Item) : setEmb e (setEmb e' it) = setEmb e it := rfl

theorem setEmb_content (e : Emb) (it : Item) : (setEmb e it).content = it.content := rfl

theorem setEmbsAt_nil (items : List Item) : setEmbsAt items [] = items := rfl

theorem setEmbsAt_cons (items : List Item) (p : Nat × Emb) (ps : List (Nat × Emb)) :
    setEmbsAt items (p :: ps) = setEmbsAt (modifyIdx (setEmb p.2) p.1 items) ps := rfl

theorem setEmbsAt_append (items : List Item) (ps qs : List (Nat × Emb)) :
    setEmbsAt items (ps ++ qs) = setEmbsAt (setEmbsAt items ps) qs := by
  simp [setEmbsAt, List.foldl_append]

theorem setEmbsAt_length (items : List Item) (ps : List (Nat × Emb)) :
    (setEmbsAt items ps).length = items.length := by
  induction ps generalizing items with
  | nil => rfl
  | cons p ps ih => rw [setEmbsAt_cons, ih, modifyIdx_length]

theorem setEmbsAt_get? : ∀ (ps : List (Nat × Emb)) (items : List Item) (j : Nat),
    (setEmbsAt items ps)[j]? =
      match lastAssoc ps j with
      | some e => items[j]?.map (setEmb e)
      | none => items[j]? := by
  intro ps
  induction ps with
  | nil => intro items j; rfl
  | cons p ps ih =>
      intro items j
      rw [setEmbsAt_cons, ih]
      cases hla : lastAssoc ps j with
      | some e =>
          simp only [lastAssoc, hla]
          rw [modifyIdx_get? (setEmb p.2) p.1 items j]
          by_cases hj : j = p.1
          · simp [hj, Option.map_map, Function.comp_def, setEmb_setEmb]
          · simp [hj]
      | none =>
          simp only [lastAssoc, hla]
          rw [modifyIdx_get? (setEmb p.2) p.1 items j]
          by_cases hj : j = p.1
          · simp [hj]
          · have : ¬(p.1 = j) := fun h => hj h.symm
            simp [hj, this]

theorem setEmbsAt_map_content (items : List Item) (ps : List (Nat × Emb)) :
    (setEmbsAt items ps).map Item.content = items.map Item.content := by
  apply List.ext_getElem?
  intro j
  rw [List.getElem?_map, List.getElem?_map, setEmbsAt_get?]
  cases lastAssoc ps j with
  | some e => simp [Option.map_map, Function.comp_def, setEmb_content]
  | none => rfl

theorem lastAssoc_isSome_iff (ps : List (Nat × Emb)) (j : Nat) :
    (lastAssoc ps j).isSome = true ↔ j ∈ ps.map Prod.fst := by
  induction ps with
  | nil => simp [lastAssoc]
  | cons p ps ih =>
      simp only [lastAssoc, List.map_cons, List.mem_cons]
      cases hla : lastAssoc ps j with
      | some e =>
          simp only [Option.isSome_some, true_iff]
          right
          exact ih.1 (by simp [hla])
      | none =>
          by_cases hj : p.1 = j
          · simp [hj]
          · simp only [hj, if_false]
            rw [hla] at ih
            simp only [Option.isSome_none] at ih ⊢
            constructor
            · intro h; exact absurd h (by simp)
            · rintro (h | h)
              · exact absurd h.symm hj
              · exact absurd h (by simpa using ih)

theorem embAt_setEmbsAt (items : List Item) (ps : List (Nat × Emb)) (j : Nat) :
    embAt (setEmbsAt items ps) j =
      ((lastAssoc ps j).isSome && items[j]?.isSome || embAt items j) := by
  unfold embAt
  rw [setEmbsAt_get?]
  cases lastAssoc ps j with
  | some e =>
      cases h : items[j]? with
      | none => simp [h]
      | some it => simp [h, setEmb]
  | none => simp

theorem setEmbsAt_idem (items : List Item) (ps : List (Nat × Emb)) :
    setEmbsAt (setEmbsAt items ps) ps = setEmbsAt items ps := by
  apply List.ext_getElem?
  intro j
  rw [setEmbsAt_get?, setEmbsAt_get?]
  cases lastAssoc ps j with
  | some e => simp [Option.map_map, Function.comp_def, setEmb_setEmb]
  | none => rfl

theorem chunksAux_flatten (n : Nat) : ∀ (f : Nat) (xs : List α),
    (chunksAux n f xs).flatten = xs := by
  intro f
  induction f with
  | zero => intro xs; cases xs <;> simp [chunksAux]
  | succ f ih =>
      intro xs
      cases xs with
      | nil => simp [chunksAux]
      | cons x xs => simp [chunksAux, ih]

theorem chunks_flatten (n : Nat) (xs : List α) : (chunks n xs).flatten = xs := by
  cases n with
  | zero =>
      by_cases h : xs.isEmpty
      · simp [chunks, h]; simpa [List.isEmpty_iff] using h
      · simp [chunks, h]
  | succ k => simp [chunks, chunksAux_flatten]

theorem chunks_nil (n : Nat) : chunks n ([] : List α) = [] := by
  cases n <;> simp [chunks, chunksAux]

theorem chunks_ne_nil (n : Nat) (xs : List α) (h : xs ≠ []) : chunks n xs ≠ [] := by
  cases n with
  | zero => simp [chunks, List.isEmpty_iff, h]
  | succ k =>
      cases xs with
      | nil => exact absurd rfl h
      | cons x xs => simp [chunks, chunksAux]

theorem chunksAux_map (n : Nat) (g : α → β) : ∀ (f : Nat) (xs : List α),
    chunksAux n f (xs.map g) = (chunksAux n f xs).map (List.map g) := by
  intro f
  induction f with
  | zero => intro xs; cases xs <;> simp [chunksAux]
  | succ f ih =>
      intro xs
      cases xs with
      | nil => simp [chunksAux]
      | cons x xs => simp [chunksAux, ← List.map_take, ← List.map_drop, ih]

theorem chunks_map (n : Nat) (g : α → β) (xs : List α) :
    chunks n (xs.map g) = (chunks n xs).map (List.map g) := by
  cases n with
  | zero =>
      by_cases h : xs.isEmpty
      · have : xs = [] := by simpa [List.isEmpty_iff] using h
        simp [chunks, this]
      · have : ¬(xs.map g).isEmpty := by
          simp [List.isEmpty_iff] at h ⊢; exact h
        simp [chunks, h, this]
  | succ k => simp [chunks, chunksAux_map]

theorem runBatches_eq (enc : List Content → Option (List Emb)) (ev : List Content → Event) :
    ∀ (bs : List (List (Nat × Item))) (items : List Item),
      runBatches enc ev items bs =
        (setEmbsAt items (runWrites enc bs), runFailed enc bs, runEvents enc ev bs) := by
  intro bs
  induction bs with
  | nil => intro items; rfl
  | cons b bs ih =>
      intro items
      simp only [runBatches, runWrites, runFailed, runEvents]
      cases enc (batchContents b) with
      | none => rfl
      | some es => simp [ih, setEmbsAt_append]

theorem idxFilter_mem (p : α → Bool) : ∀ (xs : List α) (i : Nat) (q : Nat × α),
    q ∈ idxFilter p i xs ↔ ∃ k, q.1 = i + k ∧ xs[k]? = some q.2 ∧ p q.2 = true := by
  intro xs
  induction xs with
  | nil => intro i q; simp [idxFilter]
  | cons x xs ih =>
      intro i q
      by_cases hp : p x = true
      · rw [show idxFilter p i (x :: xs) = (i, x) :: idxFilter p (i + 1) xs by
          simp [idxFilter, hp]]
        simp only [List.mem_cons, ih (i + 1)]
        constructor
        · rintro (rfl | ⟨k, hk1, hk2, hk3⟩)
          · exact ⟨0, by simp, by simp, hp⟩
          · exact ⟨k + 1, by omega, by simpa using hk2, hk3⟩
        · rintro ⟨k, hk1, hk2, hk3⟩
          cases k with
          | zero =>
              left
              refine Prod.ext_iff.2 ⟨by omega, ?_⟩
              have h2 : x = q.2 := by simpa using hk2
              exact h2.symm
          | succ k =>
              right
              exact ⟨k, by omega, by simpa using hk2, hk3⟩
      · have hpx : p x = false := by simpa using hp
        rw [show idxFilter p i (x :: xs) = idxFilter p (i + 1) xs by
          simp [idxFilter, hpx]]
        rw [ih (i + 1) q]
        constructor
        · rintro ⟨k, hk1, hk2, hk3⟩
          exact ⟨k + 1, by omega, by simpa using hk2, hk3⟩
        · rintro ⟨k, hk1, hk2, hk3⟩
          cases k with
          | zero =>
              have h2 : x = q.2 := by simpa using hk2
              rw [← h2] at hk3
              exact absurd hk3 hp
          | succ k =>
              exact ⟨k, by omega, by simpa using hk2, hk3⟩

theorem idxFilter_fst_mem (p : α → Bool) (xs : List α) (j : Nat) :
    j ∈ (idxFilter p 0 xs).map Prod.fst ↔ ∃ a, xs[j]? = some a ∧ p a = true := by
  rw [List.mem_map]
  constructor
  · rintro ⟨q, hq, rfl⟩
    obtain ⟨k, hk1, hk2, hk3⟩ := (idxFilter_mem p xs 0 q).1 hq
    have : k = q.1 := by omega
    subst this
    exact ⟨q.2, hk2, hk3⟩
  · rintro ⟨a, ha, hpa⟩
    exact ⟨(j, a), (idxFilter_mem p xs 0 (j, a)).2 ⟨j, by omega, ha, hpa⟩, rfl⟩

theorem idxFilter_map_congr (p : α → Bool) (pr : α → β)
    (hp : ∀ a b : α, pr a = pr b → p a = p b) :
    ∀ (xs ys : List α) (i : Nat), xs.map pr = ys.map pr →
      (idxFilter p i xs).map (fun q => (q.1, pr q.2)) =
        (idxFilter p i ys).map (fun q => (q.1, pr q.2)) := by
  intro xs
  induction xs with
  | nil =>
      intro ys i h
      have : ys = [] := by
        cases ys with
        | nil => rfl
        | cons y ys => simp at h
      subst this; rfl
  | cons x xs ih =>
      intro ys i h
      cases ys with
      | nil => simp at h
      | cons y ys =>
          simp only [List.map_cons, List.cons.injEq] at h
          obtain ⟨hxy, htl⟩ := h
          have hpe : p x = p y := hp x y hxy
          by_cases hpx : p x = true
          · simp only [idxFilter, hpx, hpe ▸ hpx, if_true, List.map_cons]
            rw [ih ys (i + 1) htl, hxy]
          · have hpy : ¬(p y = true) := by rw [← hpe]; exact hpx
            simp only [idxFilter, hpx, hpy, if_false]
            exact ih ys (i + 1) htl

theorem batchContents_eq_proj (b : List (Nat × Item)) :
    batchContents b = (b.map (fun q : Nat × Item => (q.1, q.2.content))).map Prod.snd := by
  simp [batchContents, List.map_map, Function.comp_def]

theorem batchFst_eq_proj (b : List (Nat × Item)) :
    b.map Prod.fst = (b.map (fun q : Nat × Item => (q.1, q.2.content))).map Prod.fst := by
  simp [List.map_map, Function.comp_def]

theorem runAll_congr (enc : List Content → Option (List Emb)) (ev : List Content → Event) :
    ∀ (bs bs2 : List (List (Nat × Item))),
      bs2.map (List.map (fun q : Nat × Item => (q.1, q.2.content))) =
        bs.map (List.map (fun q : Nat × Item => (q.1, q.2.content))) →
      runWrites enc bs2 = runWrites enc bs ∧ runFailed enc bs2 = runFailed enc bs ∧
        runEvents enc ev bs2 = runEvents enc ev bs := by
  intro bs
  induction bs with
  | nil =>
      intro bs2 h
      have : bs2 = [] := by
        cases bs2 with
        | nil => rfl
        | cons b bs2 => simp at h
      subst this; exact ⟨rfl, rfl, rfl⟩
  | cons b bs ih =>
      intro bs2 h
      cases bs2 with
      | nil => simp at h
      | cons b2 bs2 =>
          simp only [List.map_cons, List.cons.injEq] at h
          obtain ⟨hb, htl⟩ := h
          have hc : batchContents b2 = batchContents b := by
            rw [batchContents_eq_proj, batchContents_eq_proj, hb]
          have hf : b2.map Prod.fst = b.map Prod.fst := by
            rw [batchFst_eq_proj, batchFst_eq_proj, hb]
          obtain ⟨ihw, ihf, ihe⟩ := ih bs2 htl
          simp only [runWrites, runFailed, runEvents, hc]
          cases enc (batchContents b) with
          | none => exact ⟨rfl, rfl, rfl⟩
          | some es => simp [hf, ihw, ihf, ihe]

theorem runFailed_of_ok (enc : List Content → Option (List Emb))
    (h : ∀ cs, (enc cs).isSome = true) :
    ∀ bs : List (List (Nat × Item)), runFailed enc bs = false := by
  intro bs
  induction bs with
  | nil => rfl
  | cons b bs ih =>
      simp only [runFailed]
      cases he : enc (batchContents b) with
      | none => have := h (batchContents b); rw [he] at this; simp at this
      | some es => exact ih

theorem runEvents_all (enc : List Content → Option (List Emb)) (ev : List Content → Event) :
    ∀ (bs : List (List (Nat × Item))) (e : Event),
      e ∈ runEvents enc ev bs → ∃ cs, e = ev cs := by
  intro bs
  induction bs with
  | nil => intro e he; simp [runEvents] at he
  | cons b bs ih =>
      intro e he
      simp only [runEvents] at he
      cases h : enc (batchContents b) with
      | none =>
          simp only [h] at he
          exact absurd he (List.not_mem_nil e)
      | some es =>
          simp only [h] at he
          rcases List.mem_cons.1 he with h' | h'
          · exact ⟨batchContents b, h'⟩
          · exact ih e h'

theorem runWrites_fst (enc : List Content → Option (List Emb))
    (hlen : ∀ cs es, enc cs = some es → es.length = cs.length) :
    ∀ bs : List (List (Nat × Item)), runFailed enc bs = false →
      (runWrites enc bs).map Prod.fst = bs.flatten.map Prod.fst := by
  intro bs
  induction bs with
  | nil => intro h; rfl
  | cons b bs ih =>
      intro h
      simp only [runWrites, runFailed] at *
      cases he : enc (batchContents b) with
      | none => rw [he] at h; simp at h
      | some es =>
          rw [he] at h
          have hlb : (b.map Prod.fst).length ≤ es.length := by
            rw [hlen (batchContents b) es he]
            simp [batchContents]
          simp only [List.flatten_cons, List.map_append]
          rw [List.map_fst_zip _ _ hlb, ih h]

theorem encodeItems_eq (cfg : Cfg) (items : List Item) :
    encodeItems cfg items =
      (setEmbsAt items (encodeWrites cfg items), encodeFailed cfg items,
        encodeEvents cfg items) := by
  have hr1 :
      (if (idxFilter isImg 0 items).isEmpty then (items, false, ([] : List Event))
        else runBatches cfg.encode_image Event.imgBatch items
          (chunks cfg.minibatch_size (idxFilter isImg 0 items))) =
      (setEmbsAt items (runWrites cfg.encode_image (imgBatches cfg items)),
        runFailed cfg.encode_image (imgBatches cfg items),
        runEvents cfg.encode_image Event.imgBatch (imgBatches cfg items)) := by
    by_cases hI : (idxFilter isImg 0 items).isEmpty
    · have hI' : idxFilter isImg 0 items = [] := by simpa [List.isEmpty_iff] using hI
      have hbs : imgBatches cfg items = [] := by simp [imgBatches, hI', chunks_nil]
      simp [hI, hbs, runWrites, runFailed, runEvents, setEmbsAt_nil]
    · simp [hI, imgBatches, runBatches_eq]
  have hr2 : ∀ base : List Item,
      (if (idxFilter isTxt 0 items).isEmpty then (base, false, ([] : List Event))
        else runBatches cfg.encode_text Event.txtBatch base
          (chunks cfg.minibatch_size (idxFilter isTxt 0 items))) =
      (setEmbsAt base (runWrites cfg.encode_text (txtBatches cfg items)),
        runFailed cfg.encode_text (txtBatches cfg items),
        runEvents cfg.encode_text Event.txtBatch (txtBatches cfg items)) := by
    intro base
    by_cases hT : (idxFilter isTxt 0 items).isEmpty
    · have hT' : idxFilter isTxt 0 items = [] := by simpa [List.isEmpty_iff] using hT
      have hbs : txtBatches cfg items = [] := by simp [txtBatches, hT', chunks_nil]
      simp [hT, hbs, runWrites, runFailed, runEvents, setEmbsAt_nil]
    · simp [hT, txtBatches, runBatches_eq]
  show (let imgs := idxFilter isImg 0 items
        let txts := idxFilter isTxt 0 items
        let r1 :=
          if imgs.isEmpty then (items, false, ([] : List Event))
          else runBatches cfg.encode_image Event.imgBatch items
            (chunks cfg.minibatch_size imgs)
        if r1.2.1 then (r1.1, true, r1.2.2)
        else
          let r2 :=
            if txts.isEmpty then (r1.1, false, ([] : List Event))
            else runBatches cfg.encode_text Event.txtBatch r1.1
              (chunks cfg.minibatch_size txts)
          (r2.1, r2.2.1, r1.2.2 ++ r2.2.2)) = _
  simp only [hr1, hr2]
  by_cases hf : runFailed cfg.encode_image (imgBatches cfg items) = true
  · simp [hf, encodeWrites, encodeFailed, encodeEvents]
  · have hf' : runFailed cfg.encode_image (imgBatches cfg items) = false := by
      simpa using hf
    simp [hf', encodeWrites, encodeFailed, encodeEvents, setEmbsAt_append]

theorem get?_isSome_of_lt (l : List α) (i : Nat) (h : i < l.length) :
    ∃ a, l[i]? = some a := by
  cases hl : l[i]? with
  | none => rw [List.getElem?_eq_none_iff] at hl; omega
  | some a => exact ⟨a, rfl⟩

theorem mem_zip_get? : ∀ (ps : List α) (qs : List β) (q : α × β), q ∈ ps.zip qs →
    ∃ k : Nat, ps[k]? = some q.1 ∧ qs[k]? = some q.2 := by
  intro ps
  induction ps with
  | nil => intro qs q h; simp at h
  | cons p ps ih =>
      intro qs q h
      cases qs with
      | nil => simp at h
      | cons q0 qs =>
          rcases List.mem_cons.1 h with h | h
          · exact ⟨0, by simp [h], by simp [h]⟩
          · obtain ⟨k, hk1, hk2⟩ := ih qs q h
            exact ⟨k + 1, by simpa using hk1, by simpa using hk2⟩

theorem zip_get?_mem : ∀ (ps : List α) (qs : List β) (k : Nat) (a : α) (b : β),
    ps[k]? = some a → qs[k]? = some b → (a, b) ∈ ps.zip qs := by
  intro ps
  induction ps with
  | nil => intro qs k a b h; simp at h
  | cons p ps ih =>
      intro qs k a b hp hq
      cases qs with
      | nil => simp at hq
      | cons q0 qs =>
          cases k with
          | zero =>
              simp only [List.getElem?_cons_zero, Option.some.injEq] at hp hq
              simp [List.zip_cons_cons, hp, hq]
          | succ k =>
              simp only [List.getElem?_cons_succ] at hp hq
              exact List.mem_cons.2 (Or.inr (ih qs k a b hp hq))

theorem setLoc_length (ds : DocSet) (l : Loc) (it : Item) :
    (setLoc ds l it).length = ds.length := by
  cases l <;> simp [setLoc, modifyIdx_length]

theorem setLoc_matchLen (ds : DocSet) (l : Loc) (it : Item) (i : Nat) :
    (setLoc ds l it)[i]?.map (fun d => d.matchItems.length) =
      ds[i]?.map (fun d => d.matchItems.length) := by
  cases l with
  | root i0 =>
      simp only [setLoc]
      rw [modifyIdx_get?]
      by_cases h : i = i0
      · simp [h, Option.map_map, Function.comp_def]
      · simp [h]
  | mtch i0 j0 =>
      simp only [setLoc]
      rw [modifyIdx_get?]
      by_cases h : i = i0
      · simp [h, Option.map_map, Function.comp_def, modifyIdx_length]
      · simp [h]

theorem locValid_congr (ds1 ds2 : DocSet) (hlen : ds1.length = ds2.length)
    (hml : ∀ i : Nat, ds1[i]?.map (fun d => d.matchItems.length) =
      ds2[i]?.map (fun d => d.matchItems.length)) (l : Loc) :
    locValid ds1 l = locValid ds2 l := by
  cases l with
  | root i => simp [locValid, hlen]
  | mtch i j =>
      have hm := hml i
      cases h1 : ds1[i]? with
      | none =>
          cases h2 : ds2[i]? with
          | none => simp [locValid, h1, h2]
          | some d2 => rw [h1, h2] at hm; simp at hm
      | some d1 =>
          cases h2 : ds2[i]? with
          | none => rw [h1, h2] at hm; simp at hm
          | some d2 =>
              rw [h1, h2] at hm
              simp only [Option.map_some', Option.some.injEq] at hm
              simp [locValid, h1, h2, hm]

theorem locValid_setLoc (ds : DocSet) (l : Loc) (it : Item) (l' : Loc) :
    locValid (setLoc ds l it) l' = locValid ds l' :=
  locValid_congr _ _ (setLoc_length ds l it) (setLoc_matchLen ds l it) l'

theorem getLoc_setLoc_same (ds : DocSet) (l : Loc) (it : Item) (h : locValid ds l = true) :
    getLoc (setLoc ds l it) l = it := by
  cases l with
  | root i =>
      have hi : i < ds.length := by simpa [locValid] using h
      obtain ⟨d, hd⟩ := get?_isSome_of_lt ds i hi
      simp [getLoc, setLoc, modifyIdx_get?, hd]
  | mtch i j =>
      cases hds : ds[i]? with
      | none => simp [locValid, hds] at h
      | some d =>
          have hj : j < d.matchItems.length := by simpa [locValid, hds] using h
          obtain ⟨m, hm⟩ := get?_isSome_of_lt d.matchItems j hj
          simp [getLoc, setLoc, modifyIdx_get?, hds, hm]

theorem getLoc_setLoc_other (ds : DocSet) (l : Loc) (it : Item) (l' : Loc) (h : l' ≠ l) :
    getLoc (setLoc ds l it) l' = getLoc ds l' := by
  cases l with
  | root i =>
      cases l' with
      | root i' =>
          have hii : ¬(i' = i) := fun e => h (by rw [e])
          simp [getLoc, setLoc, modifyIdx_get?, hii]
      | mtch i' j' =>
          simp only [getLoc, setLoc]
          rw [modifyIdx_get?]
          by_cases hii : i' = i
          · subst hii
            cases hds : ds[i']? <;> simp [hds]
          · simp [hii]
  | mtch i j =>
      cases l' with
      | root i' =>
          simp only [getLoc, setLoc]
          rw [modifyIdx_get?]
          by_cases hii : i' = i
          · subst hii
            cases hds : ds[i']? <;> simp [hds]
          · simp [hii]
      | mtch i' j' =>
          simp only [getLoc, setLoc]
          rw [modifyIdx_get?]
          by_cases hii : i' = i
          · subst hii
            have hjj : ¬(j' = j) := fun e => h (by rw [e])
            cases hds : ds[i']? with
            | none => simp [hds]
            | some d => simp [hds, modifyIdx_get?, hjj]
          · simp [hii]

theorem writeBackLocs_cons (ds : DocSet) (p : Loc × Item) (lps : List (Loc × Item)) :
    writeBackLocs ds (p :: lps) = writeBackLocs (setLoc ds p.1 p.2) lps := rfl

theorem writeBackLocs_length (lps : List (Loc × Item)) : ∀ ds : DocSet,
    (writeBackLocs ds lps).length = ds.length := by
  induction lps with
  | nil => intro ds; rfl
  | cons p lps ih => intro ds; rw [writeBackLocs_cons, ih, setLoc_length]

theorem writeBackLocs_matchLen (lps : List (Loc × Item)) : ∀ (ds : DocSet) (i : Nat),
    (writeBackLocs ds lps)[i]?.map (fun d => d.matchItems.length) =
      ds[i]?.map (fun d => d.matchItems.length) := by
  induction lps with
  | nil => intro ds i; rfl
  | cons p lps ih => intro ds i; rw [writeBackLocs_cons, ih, setLoc_matchLen]

theorem locValid_writeBackLocs (lps : List (Loc × Item)) (ds : DocSet) (l : Loc) :
    locValid (writeBackLocs ds lps) l = locValid ds l :=
  locValid_congr _ _ (writeBackLocs_length lps ds) (writeBackLocs_matchLen lps ds) l

theorem getLoc_writeBackLocs_notMem (lps : List (Loc × Item)) : ∀ (ds : DocSet) (l : Loc),
    l ∉ lps.map Prod.fst → getLoc (writeBackLocs ds lps) l = getLoc ds l := by
  induction lps with
  | nil => intro ds l _; rfl
  | cons p lps ih =>
      intro ds l hl
      simp only [List.map_cons, List.mem_cons] at hl
      push_neg at hl
      rw [writeBackLocs_cons, ih _ _ hl.2]
      exact getLoc_setLoc_other ds p.1 p.2 l hl.1

theorem getLoc_writeBackLocs_mem (lps : List (Loc × Item)) : ∀ (ds : DocSet) (l : Loc) (it : Item),
    (lps.map Prod.fst).Nodup → (l, it) ∈ lps → locValid ds l = true →
    getLoc (writeBackLocs ds lps) l = it := by
  induction lps with
  | nil => intro ds l it _ hmem _; simp at hmem
  | cons p lps ih =>
      intro ds l it hnd hmem hv
      rcases List.mem_cons.1 hmem with heq | hmem'
      · subst heq
        rw [writeBackLocs_cons]
        have hnotin : l ∉ lps.map Prod.fst := by
          simp only [List.map_cons, List.nodup_cons] at hnd
          exact hnd.1
        rw [getLoc_writeBackLocs_notMem lps _ _ hnotin]
        exact getLoc_setLoc_same ds l it hv
      · rw [writeBackLocs_cons]
        apply ih (setLoc ds p.1 p.2) l it ?_ hmem' ?_
        · simp only [List.map_cons, List.nodup_cons] at hnd
          exact hnd.2
        · rw [locValid_setLoc]; exact hv

theorem locMatches_valid (ds : DocSet) (x l : Loc) (h : l ∈ locMatches ds x) :
    locValid ds l = true := by
  cases x with
  | mtch i j => simp [locMatches] at h
  | root i =>
      simp only [locMatches] at h
      obtain ⟨j, hj, rfl⟩ := List.mem_map.1 h
      have hj' := List.mem_range.1 hj
      cases hds : ds[i]? with
      | none => rw [hds] at hj'; simp at hj'
      | some d =>
          rw [hds] at hj'
          simp only [Option.map_some', Option.getD_some] at hj'
          simp [locValid, hds, hj']

theorem locMatches_shape (ds : DocSet) (x l : Loc) (h : l ∈ locMatches ds x) :
    ∃ i j, l = Loc.mtch i j := by
  cases x with
  | mtch i j => simp [locMatches] at h
  | root i =>
      simp only [locMatches] at h
      obtain ⟨j, _, rfl⟩ := List.mem_map.1 h
      exact ⟨i, j, rfl⟩

theorem select_valid (ds : DocSet) (ap : AccessPath) :
    ∀ l ∈ select ds ap, locValid ds l = true := by
  intro l hl
  cases ap with
  | r =>
      simp only [select] at hl
      obtain ⟨i, hi, rfl⟩ := List.mem_map.1 hl
      simp only [locValid, decide_eq_true_eq]
      exact List.mem_range.1 hi
  | m =>
      simp only [select] at hl
      obtain ⟨x, _, hl'⟩ := List.mem_flatMap.1 hl
      exact locMatches_valid ds x l hl'
  | rm =>
      simp only [select] at hl
      rcases List.mem_append.1 hl with h | h
      · obtain ⟨i, hi, rfl⟩ := List.mem_map.1 h
        simp only [locValid, decide_eq_true_eq]
        exact List.mem_range.1 hi
      · obtain ⟨x, _, hl'⟩ := List.mem_flatMap.1 h
        exact locMatches_valid ds x l hl'

theorem rootLocs_nodup (n : Nat) : ((List.range n).map Loc.root).Nodup :=
  (List.nodup_range n).map (fun a b h => by injection h)

theorem matchLocs_nodup (ds : DocSet) (n : Nat) :
    (((List.range n).map Loc.root).flatMap (locMatches ds)).Nodup := by
  rw [List.nodup_flatMap]
  constructor
  · intro x hx
    obtain ⟨i, _, rfl⟩ := List.mem_map.1 hx
    simp only [locMatches]
    exact (List.nodup_range _).map (fun a b h => by injection h)
  · rw [List.pairwise_map]
    apply List.Pairwise.imp ?_ (List.nodup_range n)
    intro a b hab l hla hlb
    obtain ⟨ja, hja, rfl⟩ := List.mem_map.1 hla
    obtain ⟨jb, hjb, he⟩ := List.mem_map.1 hlb
    injection he with h1 h2
    exact hab h1.symm

theorem select_nodup (ds : DocSet) (ap : AccessPath) : (select ds ap).Nodup := by
  cases ap with
  | r => exact rootLocs_nodup ds.length
  | m => exact matchLocs_nodup ds ds.length
  | rm =>
      apply (rootLocs_nodup ds.length).append (matchLocs_nodup ds ds.length)
      intro l hl hl'
      obtain ⟨i, _, rfl⟩ := List.mem_map.1 hl
      obtain ⟨x, _, hlm⟩ := List.mem_flatMap.1 hl'
      obtain ⟨i', j', he⟩ := locMatches_shape ds x _ hlm
      cases he

theorem docSet_ext (ds1 ds2 : DocSet) (hlen : ds1.length = ds2.length)
    (hml : ∀ i : Nat, ds1[i]?.map (fun d => d.matchItems.length) =
      ds2[i]?.map (fun d => d.matchItems.length))
    (hloc : ∀ l, getLoc ds1 l = getLoc ds2 l) : ds1 = ds2 := by
  apply List.ext_getElem?
  intro i
  cases h1 : ds1[i]? with
  | none =>
      cases h2 : ds2[i]? with
      | none => rfl
      | some d2 => have hm := hml i; rw [h1, h2] at hm; simp at hm
  | some d1 =>
      cases h2 : ds2[i]? with
      | none => have hm := hml i; rw [h1, h2] at hm; simp at hm
      | some d2 =>
          have hm := hml i
          rw [h1, h2] at hm
          simp only [Option.map_some', Option.some.injEq] at hm
          have hroot : d1.root = d2.root := by
            have hr := hloc (Loc.root i)
            simpa [getLoc, h1, h2] using hr
          have hmi : d1.matchItems = d2.matchItems := by
            apply List.ext_getElem?
            intro j
            cases hj1 : d1.matchItems[j]? with
            | none =>
                cases hj2 : d2.matchItems[j]? with
                | none => rfl
                | some m2 =>
                    rw [List.getElem?_eq_none_iff] at hj1
                    have hn : d2.matchItems[j]? = none :=
                      List.getElem?_eq_none (by omega)
                    exact absurd (hn.symm.trans hj2) (by simp)
            | some m1 =>
                cases hj2 : d2.matchItems[j]? with
                | none =>
                    rw [List.getElem?_eq_none_iff] at hj2
                    have hn : d1.matchItems[j]? = none :=
                      List.getElem?_eq_none (by omega)
                    exact absurd (hn.symm.trans hj1) (by simp)
                | some m2 =>
                    have hl := hloc (Loc.mtch i j)
                    simpa [getLoc, h1, h2, hj1, hj2] using hl
          cases d1
          cases d2
          simp only at hroot hmi
          rw [hroot, hmi]

theorem hclean_getLoc (ds : DocSet)
    (hclean : ∀ d ∈ ds, d.root.embedding = none ∧
      ∀ it ∈ d.matchItems, it.embedding = none) :
    ∀ l, (getLoc ds l).embedding = none := by
  intro l
  cases l with
  | root i =>
      cases h : ds[i]? with
      | none => simp [getLoc, h]; rfl
      | some d =>
          simp only [getLoc, h, Option.map_some', Option.getD_some]
          exact (hclean d (List.getElem?_mem h)).1
  | mtch i j =>
      cases h : ds[i]? with
      | none => simp [getLoc, h]; rfl
      | some d =>
          cases hj : d.matchItems[j]? with
          | none => simp [getLoc, h, hj]; rfl
          | some m =>
              have hg : getLoc ds (Loc.mtch i j) = m := by simp [getLoc, h, hj]
              rw [hg]
              exact (hclean d (List.getElem?_mem h)).2 m (List.getElem?_mem hj)

theorem lt_of_getElem?_some (l : List α) (k : Nat) (a : α) (h : l[k]? = some a) :
    k < l.length := by
  by_contra hc
  push_neg at hc
  rw [List.getElem?_eq_none hc] at h
  cases h

theorem encode_docs_eq (cfg : Cfg) (ds : DocSet) (p : Params) :
    (encode cfg ds p).docs =
      writeBackLocs ds ((select ds (effectivePath cfg p)).zip
        (setEmbsAt (selItems cfg ds p) (encodeWrites cfg (selItems cfg ds p)))) := by
  have h0 : (encode cfg ds p).docs =
      writeBackLocs ds ((select ds (effectivePath cfg p)).zip
        (encodeItems cfg (selItems cfg ds p)).1) := rfl
  rw [h0, encodeItems_eq]

theorem encode_failed_eq (cfg : Cfg) (ds : DocSet) (p : Params) :
    (encode cfg ds p).failed = encodeFailed cfg (selItems cfg ds p) := by
  have h0 : (encode cfg ds p).failed = (encodeItems cfg (selItems cfg ds p)).2.1 := rfl
  rw [h0, encodeItems_eq]

theorem encode_events_eq (cfg : Cfg) (ds : DocSet) (p : Params) :
    (encode cfg ds p).events = encodeEvents cfg (selItems cfg ds p) := by
  have h0 : (encode cfg ds p).events = (encodeItems cfg (selItems cfg ds p)).2.2 := rfl
  rw [h0, encodeItems_eq]

theorem selItems_length (cfg : Cfg) (ds : DocSet) (p : Params) :
    (selItems cfg ds p).length = (select ds (effectivePath cfg p)).length :=
  List.length_map _ _

theorem encode_docs_length (cfg : Cfg) (ds : DocSet) (p : Params) :
    (encode cfg ds p).docs.length = ds.length := by
  rw [encode_docs_eq]; exact writeBackLocs_length _ _

theorem encode_docs_matchLen (cfg : Cfg) (ds : DocSet) (p : Params) (i : Nat) :
    (encode cfg ds p).docs[i]?.map (fun d => d.matchItems.length) =
      ds[i]?.map (fun d => d.matchItems.length) := by
  rw [encode_docs_eq]; exact writeBackLocs_matchLen _ _ _

theorem encode_getLoc_notMem (cfg : Cfg) (ds : DocSet) (p : Params) (l : Loc)
    (h : l ∉ select ds (effectivePath cfg p)) :
    getLoc (encode cfg ds p).docs l = getLoc ds l := by
  rw [encode_docs_eq]
  apply getLoc_writeBackLocs_notMem
  rw [List.map_fst_zip _ _ (le_of_eq (by rw [setEmbsAt_length, selItems_length]))]
  exact h

theorem encode_getLoc_mem (cfg : Cfg) (ds : DocSet) (p : Params) (k : Nat) (l : Loc) (it : Item)
    (hk : (select ds (effectivePath cfg p))[k]? = some l)
    (hit : (setEmbsAt (selItems cfg ds p) (encodeWrites cfg (selItems cfg ds p)))[k]? = some it) :
    getLoc (encode cfg ds p).docs l = it := by
  rw [encode_docs_eq]
  apply getLoc_writeBackLocs_mem
  · rw [List.map_fst_zip _ _ (le_of_eq (by rw [setEmbsAt_length, selItems_length]))]
    exact select_nodup ds _
  · exact zip_get?_mem _ _ k l it hk hit
  · exact select_valid ds _ l (List.getElem?_mem hk)

theorem encodeWrites_fst (cfg : Cfg) (items : List Item)
    (hlenI : ∀ cs es, cfg.encode_image cs = some es → es.length = cs.length)
    (hlenT : ∀ cs es, cfg.encode_text cs = some es → es.length = cs.length)
    (hfI : runFailed cfg.encode_image (imgBatches cfg items) = false)
    (hfT : runFailed cfg.encode_text (txtBatches cfg items) = false) :
    (encodeWrites cfg items).map Prod.fst =
      (idxFilter isImg 0 items).map Prod.fst ++ (idxFilter isTxt 0 items).map Prod.fst := by
  rw [encodeWrites, if_neg (by rw [hfI]; exact Bool.false_ne_true)]
  rw [List.map_append, runWrites_fst cfg.encode_image hlenI _ hfI,
    runWrites_fst cfg.encode_text hlenT _ hfT]
  rw [imgBatches, txtBatches, chunks_flatten, chunks_flatten]

theorem embAt_encoded (cfg : Cfg) (items : List Item)
    (hlenI : ∀ cs es, cfg.encode_image cs = some es → es.length = cs.length)
    (hlenT : ∀ cs es, cfg.encode_text cs = some es → es.length = cs.length)
    (hfail : encodeFailed cfg items = false) (k : Nat)
    (hinit : embAt items k = false) :
    (embAt (setEmbsAt items (encodeWrites cfg items)) k = true ↔
      ∃ a, items[k]? = some a ∧ hasContent a = true) := by
  have hfI : runFailed cfg.encode_image (imgBatches cfg items) = false := by
    rw [encodeFailed] at hfail
    exact (Bool.or_eq_false_iff.1 hfail).1
  have hfT : runFailed cfg.encode_text (txtBatches cfg items) = false := by
    rw [encodeFailed] at hfail
    exact (Bool.or_eq_false_iff.1 hfail).2
  rw [embAt_setEmbsAt, hinit, Bool.or_false]
  cases hk : items[k]? with
  | none =>
      constructor
      · intro h; simp at h
      · rintro ⟨a, ha, _⟩; cases ha
  | some a =>
      simp only [Option.isSome_some, Bool.and_true]
      rw [lastAssoc_isSome_iff, encodeWrites_fst cfg items hlenI hlenT hfI hfT,
        List.mem_append, idxFilter_fst_mem, idxFilter_fst_mem]
      constructor
      · rintro (⟨b, hb, hbc⟩ | ⟨b, hb, hbc⟩) <;>
          [(rw [hk] at hb; injection hb with hb'); (rw [hk] at hb; injection hb with hb')] <;>
          exact ⟨a, rfl, by simp [hasContent, hb' ▸ hbc]⟩
      · rintro ⟨b, hb, hbc⟩
        injection hb with hb'
        subst hb'
        rcases Bool.or_eq_true_iff.1 (by simpa [hasContent] using hbc) with h | h
        · exact Or.inl ⟨a, hk, h⟩
        · exact Or.inr ⟨a, hk, h⟩

theorem selItems_getElem? (cfg : Cfg) (ds : DocSet) (p : Params) (k : Nat) :
    (selItems cfg ds p)[k]? = (select ds (effectivePath cfg p))[k]?.map (getLoc ds) := by
  rw [selItems, List.getElem?_map]

theorem embAt_selItems_clean (cfg : Cfg) (ds : DocSet) (p : Params)
    (hclean : ∀ d ∈ ds, d.root.embedding = none ∧
      ∀ it ∈ d.matchItems, it.embedding = none) (k : Nat) :
    embAt (selItems cfg ds p) k = false := by
  rw [embAt, selItems_getElem?]
  cases hl : (select ds (effectivePath cfg p))[k]? with
  | none => rfl
  | some l => simp [hclean_getLoc ds hclean l]

/-! Claim theorems. -/

theorem isImg_congr (a b : Item) (h : a.content = b.content) : isImg a = isImg b := by
  simp only [isImg]
  rw [h]

theorem isTxt_congr (a b : Item) (h : a.content = b.content) : isTxt a = isTxt b := by
  simp only [isTxt]
  rw [h]

theorem locMatches_congr (ds1 ds2 : DocSet)
    (hml : ∀ i : Nat, ds1[i]?.map (fun d => d.matchItems.length) =
      ds2[i]?.map (fun d => d.matchItems.length)) :
    locMatches ds1 = locMatches ds2 := by
  funext l
  cases l with
  | root i => simp only [locMatches]; rw [hml i]
  | mtch i j => rfl

theorem select_congr (ds1 ds2 : DocSet) (hlen : ds1.length = ds2.length)
    (hml : ∀ i : Nat, ds1[i]?.map (fun d => d.matchItems.length) =
      ds2[i]?.map (fun d => d.matchItems.length)) (ap : AccessPath) :
    select ds1 ap = select ds2 ap := by
  cases ap with
  | r => simp only [select]; rw [hlen]
  | m => simp only [select]; rw [hlen, locMatches_congr ds1 ds2 hml]
  | rm => simp only [select]; rw [hlen, locMatches_congr ds1 ds2 hml]

theorem encodePure_congr (cfg : Cfg) (its items : List Item)
    (h : its.map Item.content = items.map Item.content) :
    encodeWrites cfg its = encodeWrites cfg items ∧
    encodeFailed cfg its = encodeFailed cfg items ∧
    encodeEvents cfg its = encodeEvents cfg items := by
  have hIproj : (imgBatches cfg its).map
        (List.map (fun q : Nat × Item => (q.1, q.2.content))) =
      (imgBatches cfg items).map
        (List.map (fun q : Nat × Item => (q.1, q.2.content))) := by
    rw [imgBatches, imgBatches, ← chunks_map, ← chunks_map,
      idxFilter_map_congr isImg Item.content isImg_congr its items 0 h]
  have hTproj : (txtBatches cfg its).map
        (List.map (fun q : Nat × Item => (q.1, q.2.content))) =
      (txtBatches cfg items).map
        (List.map (fun q : Nat × Item => (q.1, q.2.content))) := by
    rw [txtBatches, txtBatches, ← chunks_map, ← chunks_map,
      idxFilter_map_congr isTxt Item.content isTxt_congr its items 0 h]
  obtain ⟨hw1, hf1, he1⟩ := runAll_congr cfg.encode_image Event.imgBatch
    (imgBatches cfg items) (imgBatches cfg its) hIproj
  obtain ⟨hw2, hf2, he2⟩ := runAll_congr cfg.encode_text Event.txtBatch
    (txtBatches cfg items) (txtBatches cfg its) hTproj
  refine ⟨?_, ?_, ?_⟩ <;>
    simp only [encodeWrites, encodeFailed, encodeEvents, hw1, hf1, he1, hw2, hf2, he2]

theorem writeBackLocs_idem (ds : DocSet) (lps : List (Loc × Item))
    (hnd : (lps.map Prod.fst).Nodup)
    (hv : ∀ l ∈ lps.map Prod.fst, locValid ds l = true) :
    writeBackLocs (writeBackLocs ds lps) lps = writeBackLocs ds lps := by
  apply docSet_ext
  · exact writeBackLocs_length lps _
  · intro i; exact writeBackLocs_matchLen lps _ i
  · intro l
    by_cases hm : l ∈ lps.map Prod.fst
    · obtain ⟨q, hq, hfst⟩ := List.mem_map.1 hm
      have hq' : (l, q.2) ∈ lps := by
        rw [show (l, q.2) = q from Prod.ext_iff.2 ⟨hfst.symm, rfl⟩]
        exact hq
      rw [getLoc_writeBackLocs_mem lps _ l q.2 hnd hq'
          (by rw [locValid_writeBackLocs]; exact hv l hm),
        getLoc_writeBackLocs_mem lps ds l q.2 hnd hq' (hv l hm)]
    · rw [getLoc_writeBackLocs_notMem lps _ l hm]

theorem encodeResult_ext (a b : EncodeResult) (h1 : a.docs = b.docs)
    (h2 : a.failed = b.failed) (h3 : a.events = b.events)
    (h4 : a.warnedDeprecated = b.warnedDeprecated) : a = b := by
  cases a
  cases b
  simp_all

/-- C2: for every Document Set and selection, when the Items start without
embeddings, the engine returns one embedding per minibatch Item, and the
call succeeds, the Items that end the call with an embedding are exactly
the selected Items carrying image or text content; every Item keeps its
content and its position (the write-back changes no lengths and no
contents, so the original order is untouched). -/
theorem C2_encode_embeds_exactly_selected (cfg : Cfg) (ds : DocSet) (p : Params)
    (hlenI : ∀ cs es, cfg.encode_image cs = some es → es.length = cs.length)
    (hlenT : ∀ cs es, cfg.encode_text cs = some es → es.length = cs.length)
    (hclean : ∀ d ∈ ds, d.root.embedding = none ∧
      ∀ it ∈ d.matchItems, it.embedding = none)
    (hok : (encode cfg ds p).failed = false) :
    (encode cfg ds p).docs.length = ds.length ∧
    (∀ i : Nat, (encode cfg ds p).docs[i]?.map (fun d => d.matchItems.length) =
      ds[i]?.map (fun d => d.matchItems.length)) ∧
    (∀ l, (getLoc (encode cfg ds p).docs l).content = (getLoc ds l).content) ∧
    (∀ l, ((getLoc (encode cfg ds p).docs l).embedding.isSome = true ↔
      l ∈ select ds (effectivePath cfg p) ∧ hasContent (getLoc ds l) = true)) := by
  have hfail : encodeFailed cfg (selItems cfg ds p) = false := by
    rw [← encode_failed_eq]; exact hok
  refine ⟨encode_docs_length cfg ds p, encode_docs_matchLen cfg ds p, ?_, ?_⟩
  · intro l
    by_cases hmem : l ∈ select ds (effectivePath cfg p)
    · obtain ⟨k, hk⟩ := List.mem_iff_getElem?.1 hmem
      have hklt : k < (setEmbsAt (selItems cfg ds p)
          (encodeWrites cfg (selItems cfg ds p))).length := by
        rw [setEmbsAt_length, selItems_length]
        exact lt_of_getElem?_some _ _ _ hk
      obtain ⟨it, hit⟩ := get?_isSome_of_lt _ k hklt
      rw [encode_getLoc_mem cfg ds p k l it hk hit]
      have h1 : ((setEmbsAt (selItems cfg ds p)
            (encodeWrites cfg (selItems cfg ds p))).map Item.content)[k]? =
          ((selItems cfg ds p).map Item.content)[k]? := by
        rw [setEmbsAt_map_content]
      rw [List.getElem?_map, List.getElem?_map, hit, selItems_getElem?, hk] at h1
      simpa using h1
    · rw [encode_getLoc_notMem cfg ds p l hmem]
  · intro l
    by_cases hmem : l ∈ select ds (effectivePath cfg p)
    · obtain ⟨k, hk⟩ := List.mem_iff_getElem?.1 hmem
      have hklt : k < (setEmbsAt (selItems cfg ds p)
          (encodeWrites cfg (selItems cfg ds p))).length := by
        rw [setEmbsAt_length, selItems_length]
        exact lt_of_getElem?_some _ _ _ hk
      obtain ⟨it, hit⟩ := get?_isSome_of_lt _ k hklt
      rw [encode_getLoc_mem cfg ds p k l it hk hit]
      have hembed := embAt_encoded cfg (selItems cfg ds p) hlenI hlenT hfail k
        (embAt_selItems_clean cfg ds p hclean k)
      have he1 : embAt (setEmbsAt (selItems cfg ds p)
          (encodeWrites cfg (selItems cfg ds p))) k = it.embedding.isSome := by
        simp [embAt, hit]
      rw [he1, selItems_getElem?, hk] at hembed
      constructor
      · intro h
        obtain ⟨a, ha, hc⟩ := hembed.1 h
        have ha' : getLoc ds l = a := by simpa using ha
        exact ⟨hmem, ha' ▸ hc⟩
      · rintro ⟨_, hc⟩
        exact hembed.2 ⟨getLoc ds l, by simp, hc⟩
    · rw [encode_getLoc_notMem cfg ds p l hmem, hclean_getLoc ds hclean l]
      simp [hmem]

/-- Witness for C2 at a concrete input: image/text/image/no-content roots,
total pipelines returning one embedding per Item. -/
theorem C2_witness :
    (encode wCfg wDS noParams).docs.length = wDS.length ∧
    (∀ i : Nat, (encode wCfg wDS noParams).docs[i]?.map (fun d => d.matchItems.length) =
      wDS[i]?.map (fun d => d.matchItems.length)) ∧
    (∀ l, (getLoc (encode wCfg wDS noParams).docs l).content = (getLoc wDS l).content) ∧
    (∀ l, ((getLoc (encode wCfg wDS noParams).docs l).embedding.isSome = true ↔
      l ∈ select wDS (effectivePath wCfg noParams) ∧ hasContent (getLoc wDS l) = true)) :=
  C2_encode_embeds_exactly_selected wCfg wDS noParams
    (fun cs es h => by injection h with h2; rw [← h2]; simp)
    (fun cs es h => by injection h with h2; rw [← h2]; simp)
    (by decide) (by decide)

/-- C4: within one `encode` call the engine-dispatch trace is all image
minibatches followed by all text minibatches — the two modality pipelines
never interleave, and no text minibatch is dispatched before the image
loop (including its embedding writes) has finished. -/
theorem C4_images_before_texts (cfg : Cfg) (ds : DocSet) (p : Params) :
    ∃ evI evT : List Event, (encode cfg ds p).events = evI ++ evT ∧
      (∀ e ∈ evI, isImgEvent e = true) ∧ (∀ e ∈ evT, isTxtEvent e = true) := by
  rw [encode_events_eq, encodeEvents]
  by_cases hf : runFailed cfg.encode_image (imgBatches cfg (selItems cfg ds p)) = true
  · refine ⟨runEvents cfg.encode_image Event.imgBatch (imgBatches cfg (selItems cfg ds p)),
      [], ?_, ?_, ?_⟩
    · rw [if_pos hf, List.append_nil]
    · intro e he
      obtain ⟨cs, rfl⟩ := runEvents_all _ _ _ e he
      rfl
    · intro e he; simp at he
  · refine ⟨runEvents cfg.encode_image Event.imgBatch (imgBatches cfg (selItems cfg ds p)),
      runEvents cfg.encode_text Event.txtBatch (txtBatches cfg (selItems cfg ds p)), ?_, ?_, ?_⟩
    · rw [if_neg hf]
    · intro e he
      obtain ⟨cs, rfl⟩ := runEvents_all _ _ _ e he
      rfl
    · intro e he
      obtain ⟨cs, rfl⟩ := runEvents_all _ _ _ e he
      rfl

/-- Witness for C4 at a concrete input. -/
theorem C4_witness :
    ∃ evI evT : List Event, (encode wCfg wDS noParams).events = evI ++ evT ∧
      (∀ e ∈ evI, isImgEvent e = true) ∧ (∀ e ∈ evT, isTxtEvent e = true) :=
  C4_images_before_texts wCfg wDS noParams

theorem encodeItems_imgEmpty (cfg : Cfg) (items : List Item)
    (h : idxFilter isImg 0 items = []) :
    encodeItems cfg items = encodeItemsTextOnly cfg items := by
  simp [encodeItems, encodeItemsTextOnly, h]

theorem encodeItems_txtEmpty (cfg : Cfg) (items : List Item)
    (h : idxFilter isTxt 0 items = []) :
    encodeItems cfg items = encodeItemsImageOnly cfg items := by
  have hgen : ∀ r : List Item × Bool × List Event,
      (if r.2.1 = true then (r.1, true, r.2.2) else (r.1, false, r.2.2)) = r := by
    intro r
    by_cases hf : r.2.1 = true
    · rw [if_pos hf, ← hf]
    · have hf' : r.2.1 = false := by simpa using hf
      rw [if_neg hf, ← hf']
  simp only [encodeItems, encodeItemsImageOnly, h, List.isEmpty_nil, if_true,
    List.append_nil]
  split
  · rfl
  · exact hgen _

/-- C5: a modality whose selected subset is empty is skipped outright: the
call behaves exactly like the pipeline with that modality's loop removed
(so no minibatch is formed and nothing is dispatched to the engine for that
modality, and the empty subset is no error), and every dispatched minibatch
belongs to the other modality. -/
theorem C5_empty_modality_skip (cfg : Cfg) (ds : DocSet) (p : Params) :
    (idxFilter isImg 0 (selItems cfg ds p) = [] →
      encode cfg ds p = encodeTextOnly cfg ds p ∧
      ∀ e ∈ (encode cfg ds p).events, isTxtEvent e = true) ∧
    (idxFilter isTxt 0 (selItems cfg ds p) = [] →
      encode cfg ds p = encodeImageOnly cfg ds p ∧
      ∀ e ∈ (encode cfg ds p).events, isImgEvent e = true) := by
  constructor
  · intro h
    have hitems := encodeItems_imgEmpty cfg (selItems cfg ds p) h
    constructor
    · have e1 : encode cfg ds p =
          { docs := writeBackLocs ds ((select ds (effectivePath cfg p)).zip
              (encodeItems cfg (selItems cfg ds p)).1),
            failed := (encodeItems cfg (selItems cfg ds p)).2.1,
            events := (encodeItems cfg (selItems cfg ds p)).2.2,
            warnedDeprecated := p.traversal_paths.isSome } := rfl
      have e2 : encodeTextOnly cfg ds p =
          { docs := writeBackLocs ds ((select ds (effectivePath cfg p)).zip
              (encodeItemsTextOnly cfg (selItems cfg ds p)).1),
            failed := (encodeItemsTextOnly cfg (selItems cfg ds p)).2.1,
            events := (encodeItemsTextOnly cfg (selItems cfg ds p)).2.2,
            warnedDeprecated := p.traversal_paths.isSome } := rfl
      rw [e1, e2, hitems]
    · intro e he
      rw [encode_events_eq, encodeEvents] at he
      have hbs : imgBatches cfg (selItems cfg ds p) = [] := by
        rw [imgBatches, h, chunks_nil]
      rw [hbs] at he
      simp only [runFailed, runEvents, Bool.false_eq_true, if_false,
        List.nil_append] at he
      obtain ⟨cs, rfl⟩ := runEvents_all _ _ _ e he
      rfl
  · intro h
    have hitems := encodeItems_txtEmpty cfg (selItems cfg ds p) h
    constructor
    · have e1 : encode cfg ds p =
          { docs := writeBackLocs ds ((select ds (effectivePath cfg p)).zip
              (encodeItems cfg (selItems cfg ds p)).1),
            failed := (encodeItems cfg (selItems cfg ds p)).2.1,
            events := (encodeItems cfg (selItems cfg ds p)).2.2,
            warnedDeprecated := p.traversal_paths.isSome } := rfl
      have e2 : encodeImageOnly cfg ds p =
          { docs := writeBackLocs ds ((select ds (effectivePath cfg p)).zip
              (encodeItemsImageOnly cfg (selItems cfg ds p)).1),
            failed := (encodeItemsImageOnly cfg (selItems cfg ds p)).2.1,
            events := (encodeItemsImageOnly cfg (selItems cfg ds p)).2.2,
            warnedDeprecated := p.traversal_paths.isSome } := rfl
      rw [e1, e2, hitems]
    · intro e he
      rw [encode_events_eq, encodeEvents] at he
      have hbs : txtBatches cfg (selItems cfg ds p) = [] := by
        rw [txtBatches, h, chunks_nil]
      rw [hbs] at he
      by_cases hf : runFailed cfg.encode_image (imgBatches cfg (selItems cfg ds p)) = true
      · rw [if_pos hf] at he
        obtain ⟨cs, rfl⟩ := runEvents_all _ _ _ e he
        rfl
      · rw [if_neg hf] at he
        simp only [runEvents, List.append_nil] at he
        obtain ⟨cs, rfl⟩ := runEvents_all _ _ _ e he
        rfl

/-- Witness for C5: a text-only Document Set skips the image loop, an
image-only one skips the text loop. -/
theorem C5_witness :
    (encode wCfg wDSTxt noParams = encodeTextOnly wCfg wDSTxt noParams ∧
      ∀ e ∈ (encode wCfg wDSTxt noParams).events, isTxtEvent e = true) ∧
    (encode wCfg wDSImg noParams = encodeImageOnly wCfg wDSImg noParams ∧
      ∀ e ∈ (encode wCfg wDSImg noParams).events, isImgEvent e = true) :=
  ⟨(C5_empty_modality_skip wCfg wDSTxt noParams).1 (by decide),
   (C5_empty_modality_skip wCfg wDSImg noParams).2 (by decide)⟩

/-- Counterexample for C1: with an image root and a text root, a failing
text minibatch makes the whole call fail, yet the image Item ends the call
with its embedding already written in place — a partial result is
committed, contrary to the claim. -/
theorem C1_counterexample :
    (encode wCfgTxtFail wDS2 noParams).failed = true ∧
    (getLoc (encode wCfgTxtFail wDS2 noParams).docs (Loc.root 0)).embedding.isSome = true ∧
    (getLoc (encode wCfgTxtFail wDS2 noParams).docs (Loc.root 1)).embedding.isSome = false := by
  decide

/-- C1 amended: a failing minibatch does fail the whole `encode` call (the
exception propagates, nothing is swallowed, no later minibatch runs), but
the write-back is not transactional: embeddings of minibatches that
completed before the failure — here the whole image loop when the text
pipeline fails — remain committed in place on the Items. -/
theorem C1_fail_propagates_but_prior_writes_persist (cfg : Cfg) (ds : DocSet) (p : Params)
    (hIok : ∀ cs, (cfg.encode_image cs).isSome = true)
    (hIlen : ∀ cs es, cfg.encode_image cs = some es → es.length = cs.length)
    (hTbad : ∀ cs, cfg.encode_text cs = none)
    (hTne : idxFilter isTxt 0 (selItems cfg ds p) ≠ []) :
    (encode cfg ds p).failed = true ∧
    (∀ l ∈ select ds (effectivePath cfg p), isImg (getLoc ds l) = true →
      (getLoc (encode cfg ds p).docs l).embedding.isSome = true) := by
  have hfI : runFailed cfg.encode_image (imgBatches cfg (selItems cfg ds p)) = false :=
    runFailed_of_ok _ hIok _
  have hfT : runFailed cfg.encode_text (txtBatches cfg (selItems cfg ds p)) = true := by
    have hne := chunks_ne_nil cfg.minibatch_size _ hTne
    cases hb : chunks cfg.minibatch_size (idxFilter isTxt 0 (selItems cfg ds p)) with
    | nil => exact absurd hb hne
    | cons b bs =>
        rw [txtBatches, hb]
        simp [runFailed, hTbad]
  constructor
  · rw [encode_failed_eq, encodeFailed, hfI, hfT]
    rfl
  · intro l hmem himg
    obtain ⟨k, hk⟩ := List.mem_iff_getElem?.1 hmem
    have hklt : k < (setEmbsAt (selItems cfg ds p)
        (encodeWrites cfg (selItems cfg ds p))).length := by
      rw [setEmbsAt_length, selItems_length]
      exact lt_of_getElem?_some _ _ _ hk
    obtain ⟨it, hit⟩ := get?_isSome_of_lt _ k hklt
    rw [encode_getLoc_mem cfg ds p k l it hk hit]
    have hitems : (selItems cfg ds p)[k]? = some (getLoc ds l) := by
      rw [selItems_getElem?, hk]; rfl
    have hmemW : k ∈ (encodeWrites cfg (selItems cfg ds p)).map Prod.fst := by
      rw [encodeWrites, if_neg (by rw [hfI]; exact Bool.false_ne_true), List.map_append]
      apply List.mem_append.2
      left
      rw [runWrites_fst cfg.encode_image hIlen _ hfI, imgBatches, chunks_flatten]
      exact (idxFilter_fst_mem isImg _ k).2 ⟨getLoc ds l, hitems, himg⟩
    have hemb : embAt (setEmbsAt (selItems cfg ds p)
        (encodeWrites cfg (selItems cfg ds p))) k = true := by
      rw [embAt_setEmbsAt]
      apply Bool.or_eq_true_iff.2
      left
      rw [(lastAssoc_isSome_iff _ k).2 hmemW, hitems]
      rfl
    have he1 : embAt (setEmbsAt (selItems cfg ds p)
        (encodeWrites cfg (selItems cfg ds p))) k = it.embedding.isSome := by
      simp [embAt, hit]
    rw [← he1, hemb]

/-- Witness for the amended C1: the counterexample configuration satisfies
the amended claim — the call fails and the image embedding persists. -/
theorem C1_witness :
    (encode wCfgTxtFail wDS2 noParams).failed = true ∧
    (∀ l ∈ select wDS2 (effectivePath wCfgTxtFail noParams),
      isImg (getLoc wDS2 l) = true →
      (getLoc (encode wCfgTxtFail wDS2 noParams).docs l).embedding.isSome = true) :=
  C1_fail_propagates_but_prior_writes_persist wCfgTxtFail wDS2 noParams
    (fun cs => rfl)
    (fun cs es h => by injection h with h2; rw [← h2]; simp)
    (fun cs => rfl)
    (by decide)

/-- C3: the Modality Splitter routes each selected Item with image content
to the image subset and each with text content to the text subset, places
no Item in both subsets, silently drops Items with neither content, and
each output subset is an order-preserving subsequence of the input. -/
theorem C3_splitter_partition (ds : List Item) :
    splitAll ds = (ds.filter isImg, ds.filter isTxt) ∧
    (splitAll ds).1.Sublist ds ∧
    (splitAll ds).2.Sublist ds ∧
    (∀ d ∈ ds, isImg d = true → d ∈ (splitAll ds).1) ∧
    (∀ d ∈ ds, isTxt d = true → d ∈ (splitAll ds).2) ∧
    (∀ d ∈ (splitAll ds).1, isImg d = true) ∧
    (∀ d ∈ (splitAll ds).2, isTxt d = true) ∧
    (∀ d ∈ ds, hasContent d = false → d ∉ (splitAll ds).1 ∧ d ∉ (splitAll ds).2) ∧
    (∀ d : Item, ¬(d ∈ (splitAll ds).1 ∧ d ∈ (splitAll ds).2)) := by
  have he := splitAll_eq_filter ds
  rw [he]
  refine ⟨rfl, List.filter_sublist ds, List.filter_sublist ds, ?_, ?_, ?_, ?_, ?_, ?_⟩
  · intro d hd hi; exact List.mem_filter.2 ⟨hd, hi⟩
  · intro d hd ht; exact List.mem_filter.2 ⟨hd, ht⟩
  · intro d hd; exact (List.mem_filter.1 hd).2
  · intro d hd; exact (List.mem_filter.1 hd).2
  · intro d _ hn
    constructor
    · intro hd
      have := (List.mem_filter.1 hd).2
      simp [hasContent, this] at hn
    · intro hd
      have := (List.mem_filter.1 hd).2
      simp [hasContent, this] at hn
  · rintro d ⟨h1, h2⟩
    have hi := (List.mem_filter.1 h1).2
    have ht := (List.mem_filter.1 h2).2
    cases hc : d.content with
    | image k => simp [isTxt, hc] at ht
    | text k => simp [isImg, hc] at hi
    | neither => simp [isImg, hc] at hi

/-- Witness for C3 at a concrete input: on [image, text, no-content] the
image goes to the image subset and the text to the text subset. -/
theorem C3_witness :
    (⟨Content.image 0, none, none⟩ : Item) ∈
        (splitAll [⟨Content.image 0, none, none⟩, ⟨Content.text 1, none, none⟩,
          ⟨Content.neither, none, none⟩]).1 ∧
    (⟨Content.text 1, none, none⟩ : Item) ∈
        (splitAll [⟨Content.image 0, none, none⟩, ⟨Content.text 1, none, none⟩,
          ⟨Content.neither, none, none⟩]).2 := by
  constructor
  · exact (C3_splitter_partition _).2.2.2.1 _ (by decide) (by decide)
  · exact (C3_splitter_partition _).2.2.2.2.1 _ (by decide) (by decide)

/-- C6: on a CPU-only deployment with `OMP_NUM_THREADS` unset and a
`replicas` runtime attribute, the thread budget is the current global
thread count scaled by a constant factor (1 for the torch executor, 2 for
the onnx executor), integer-divided by the replica count and floored at 1;
a (non-fatal) warning is emitted exactly when the budget is below 2, and
tuning always yields a usable configuration (budget at least 1). -/
theorem C6_thread_budget (a : InitArgs) (g : TorchThreadCfg) (so : OrtSessOptions) (n : Nat)
    (hdev : startsWithCuda (resolveDevice a) = false)
    (homp : a.ompSet = false)
    (hrep : a.replicas = some n) :
    torchThreadTuning a g =
      ({ numThreads := max 1 (g.numThreads / n), interop := 1 },
        decide (max 1 (g.numThreads / n) < 2)) ∧
    onnxThreadTuning a g so =
      ({ executionModeParallel := true, interOpNumThreads := some 1,
         intraOpNumThreads := some (max 1 (g.numThreads * 2 / n)) },
        decide (max 1 (g.numThreads * 2 / n) < 2)) ∧
    1 ≤ max 1 (g.numThreads / n) ∧ 1 ≤ max 1 (g.numThreads * 2 / n) := by
  have hm1 : max (max 1 (g.numThreads / n)) 1 = max 1 (g.numThreads / n) :=
    Nat.max_eq_left (Nat.le_max_left 1 _)
  have hm2 : max (max 1 (g.numThreads * 2 / n)) 1 = max 1 (g.numThreads * 2 / n) :=
    Nat.max_eq_left (Nat.le_max_left 1 _)
  refine ⟨?_, ?_, Nat.le_max_left 1 _, Nat.le_max_left 1 _⟩
  · simp [torchThreadTuning, hdev, homp, hrep, hm1]
  · simp [onnxThreadTuning, hdev, homp, hrep, hm2]

/-- Witness for C6: replica count 8 and global thread count 2 derive a
budget of 1 (below 2), the warning is emitted, and a subsequent encode
call still succeeds. -/
theorem C6_witness :
    torchThreadTuning ⟨none, false, false, some 8⟩ ⟨2, 2⟩ = (⟨1, 1⟩, true) ∧
    onnxThreadTuning ⟨none, false, false, some 8⟩ ⟨2, 2⟩ ⟨false, none, none⟩ =
      (⟨true, some 1, some 1⟩, true) ∧
    (encode wCfg wDS noParams).failed = false := by
  refine ⟨?_, ?_, by decide⟩
  · have h := (C6_thread_budget ⟨none, false, false, some 8⟩ ⟨2, 2⟩ ⟨false, none, none⟩ 8
      (by decide) (by decide) (by decide)).1
    simpa using h
  · have h := (C6_thread_budget ⟨none, false, false, some 8⟩ ⟨2, 2⟩ ⟨false, none, none⟩ 8
      (by decide) (by decide) (by decide)).2.1
    simpa using h

/-- C7: the deprecated `traversal_paths` name is honoured both at
construction time (it overrides the instance default and triggers the
deprecation warning) and per request (it determines the access path used,
taking precedence over both the request `access_paths` and the instance
default, and the deprecation warning is emitted). -/
theorem C7_traversal_paths_alias (k : InitKwargs) (cfg : Cfg) (ds : DocSet) (p : Params)
    (tk tp : AccessPath)
    (hk : k.traversal_paths = some tk) (hp : p.traversal_paths = some tp) :
    initAccessPaths k = (tk, true) ∧
    effectivePath cfg p = tp ∧
    (encode cfg ds p).warnedDeprecated = true := by
  refine ⟨?_, ?_, ?_⟩
  · simp [initAccessPaths, hk]
  · simp [effectivePath, hp]
  · simp [encode, encodeOn, hp]

/-- Witness for C7: a request-time `traversal_paths = '@m'` wins over both
the request `access_paths = '@r'` and the instance default `'@r'`, and the
warning is emitted. -/
theorem C7_witness :
    initAccessPaths ⟨AccessPath.r, some AccessPath.m⟩ = (AccessPath.m, true) ∧
    effectivePath wCfg ⟨some AccessPath.r, some AccessPath.m⟩ = AccessPath.m ∧
    (encode wCfg wDS ⟨some AccessPath.r, some AccessPath.m⟩).warnedDeprecated = true :=
  C7_traversal_paths_alias ⟨AccessPath.r, some AccessPath.m⟩ wCfg wDS
    ⟨some AccessPath.r, some AccessPath.m⟩ AccessPath.m AccessPath.m rfl rfl

/-- C9: when `OMP_NUM_THREADS` is set, or the requested device is a CUDA
device, or the runtime arguments carry no `replicas` attribute, no thread
tuning happens at all: the torch global thread configuration and the onnx
session options are returned unchanged and no warning is emitted. -/
theorem C9_no_tuning_frame (a : InitArgs) (g : TorchThreadCfg) (so : OrtSessOptions)
    (h : a.ompSet = true ∨ (∃ d, a.device = some d ∧ startsWithCuda d = true) ∨
      a.replicas = none) :
    torchThreadTuning a g = (g, false) ∧ onnxThreadTuning a g so = (so, false) := by
  have hguard : (!(startsWithCuda (resolveDevice a)) && !a.ompSet && a.replicas.isSome) = false := by
    rcases h with homp | ⟨d, hd, hc⟩ | hrep
    · simp [homp]
    · simp [resolveDevice, hd, hc]
    · simp [hrep]
  constructor
  · simp [torchThreadTuning, hguard]
  · simp [onnxThreadTuning, hguard]

/-- Witness for C9: with `OMP_NUM_THREADS` set (and likewise with a CUDA
device), even replica count 64 leaves the configuration untouched. -/
theorem C9_witness :
    torchThreadTuning ⟨none, false, true, some 64⟩ ⟨4, 4⟩ = (⟨4, 4⟩, false) ∧
    onnxThreadTuning ⟨some "cuda:1", false, false, some 64⟩ ⟨4, 4⟩ ⟨false, none, none⟩ =
      (⟨false, none, none⟩, false) := by
  constructor
  · exact (C9_no_tuning_frame ⟨none, false, true, some 64⟩ ⟨4, 4⟩ ⟨false, none, none⟩
      (Or.inl rfl)).1
  · exact (C9_no_tuning_frame ⟨some "cuda:1", false, false, some 64⟩ ⟨4, 4⟩ ⟨false, none, none⟩
      (Or.inr (Or.inl ⟨"cuda:1", rfl, by decide⟩))).2

/-- C8: `encode` is idempotent: after a successful call, running `encode`
again with unchanged content, the same parameters and the same (modelled,
deterministic) model returns the identical result — bit-identical
embeddings on every Item — and the second call also succeeds. -/
theorem C8_encode_idempotent (cfg : Cfg) (ds : DocSet) (p : Params)
    (h : (encode cfg ds p).failed = false) :
    encode cfg (encode cfg ds p).docs p = encode cfg ds p ∧
    (encode cfg (encode cfg ds p).docs p).failed = false := by
  have hsel : select (encode cfg ds p).docs (effectivePath cfg p) =
      select ds (effectivePath cfg p) :=
    select_congr _ _ (encode_docs_length cfg ds p) (encode_docs_matchLen cfg ds p) _
  have hits : selItems cfg (encode cfg ds p).docs p =
      setEmbsAt (selItems cfg ds p) (encodeWrites cfg (selItems cfg ds p)) := by
    rw [selItems, hsel]
    apply List.ext_getElem?
    intro k
    rw [List.getElem?_map]
    cases hk : (select ds (effectivePath cfg p))[k]? with
    | none =>
        have hk' : (select ds (effectivePath cfg p)).length ≤ k :=
          List.getElem?_eq_none_iff.1 hk
        have hnone : (setEmbsAt (selItems cfg ds p)
            (encodeWrites cfg (selItems cfg ds p)))[k]? = none :=
          List.getElem?_eq_none (by rw [setEmbsAt_length, selItems_length]; exact hk')
        rw [hnone]
        rfl
    | some l =>
        have hklt : k < (setEmbsAt (selItems cfg ds p)
            (encodeWrites cfg (selItems cfg ds p))).length := by
          rw [setEmbsAt_length, selItems_length]
          exact lt_of_getElem?_some _ _ _ hk
        obtain ⟨it, hit⟩ := get?_isSome_of_lt _ k hklt
        rw [hit, Option.map_some', encode_getLoc_mem cfg ds p k l it hk hit]
  obtain ⟨hW, hF, hE⟩ := encodePure_congr cfg
    (setEmbsAt (selItems cfg ds p) (encodeWrites cfg (selItems cfg ds p)))
    (selItems cfg ds p) (setEmbsAt_map_content _ _)
  have hfailed : (encode cfg (encode cfg ds p).docs p).failed = (encode cfg ds p).failed := by
    rw [encode_failed_eq, encode_failed_eq, hits, hF]
  have hdocs : (encode cfg (encode cfg ds p).docs p).docs = (encode cfg ds p).docs := by
    rw [encode_docs_eq cfg (encode cfg ds p).docs p, hsel, hits, hW, setEmbsAt_idem,
      encode_docs_eq cfg ds p]
    apply writeBackLocs_idem
    · rw [List.map_fst_zip _ _ (le_of_eq (by rw [setEmbsAt_length, selItems_length]))]
      exact select_nodup ds _
    · intro l hl
      rw [List.map_fst_zip _ _
        (le_of_eq (by rw [setEmbsAt_length, selItems_length]))] at hl
      exact select_valid ds _ l hl
  have hevents : (encode cfg (encode cfg ds p).docs p).events = (encode cfg ds p).events := by
    rw [encode_events_eq, encode_events_eq, hits, hE]
  constructor
  · exact encodeResult_ext _ _ hdocs hfailed hevents rfl
  · rw [hfailed]; exact h

/-- Witness for C8 at a concrete input: a successful call on the
image/text/image/no-content set re-encodes to the identical result. -/
theorem C8_witness :
    encode wCfg (encode wCfg wDS noParams).docs noParams = encode wCfg wDS noParams ∧
    (encode wCfg (encode wCfg wDS noParams).docs noParams).failed = false :=
  C8_encode_idempotent wCfg wDS noParams (by decide)

/-- C10: `rank` never forwards its request-time parameters to `encode`:
its result is the same for any two parameter dicts, and it always equals
`set_rank` applied after encoding the root-plus-matches (`'@r,m'`)
selection with the instance-default access path and default parameters. -/
theorem C10_rank_ignores_parameters (cfg : Cfg) (ds : DocSet) (pa pb : Params) :
    rank cfg ds pa = rank cfg ds pb ∧
    rank cfg ds pa =
      (set_rank (encodeOn cfg ds
          (selectFrom ds (select ds AccessPath.rm) cfg.access_paths) false).docs,
        (encodeOn cfg ds
          (selectFrom ds (select ds AccessPath.rm) cfg.access_paths) false).failed) := by
  constructor
  · rfl
  · rfl

end ClipAsService
